import Mathlib

/-!
Verification of the Graph2Tree semantic-parsing code
(`examples/.../graph2tree/src/runner_jobs.py` and
`graph4nlp/pytorch/modules/prediction/generation/StdRNNDecoder.py`).

Python strings are modelled as `List Char` (`PyStr`), Python `str.split()`,
`str.strip()`, `str.replace`, `str.split('$')` as executable functions on
`PyStr`, Python `set` of strings as `Finset PyStr`, and functions that can
raise as `Except Unit`.
-/

/-! ## Python string primitives -/

abbrev PyStr := List Char

/-- The ASCII whitespace characters recognised by Python `str.split()` /
`str.strip()` (restricted to the ASCII range, which is all that occurs in
this data). -/
def isSpaceChar (c : Char) : Bool :=
  c = ' ' || c = '\t' || c = '\n' || c = '\r' || c = '\x0b' || c = '\x0c'

/-- Python `s.lstrip()`. -/
def pyLStrip (s : PyStr) : PyStr := s.dropWhile isSpaceChar

/-- Python `s.rstrip()`. -/
def pyRStrip (s : PyStr) : PyStr := (s.reverse.dropWhile isSpaceChar).reverse

/-- Python `s.strip()`. -/
def pyStrip (s : PyStr) : PyStr := pyRStrip (pyLStrip s)

/-- Python `s.replace(",", " , ")`. -/
def replaceCommas : PyStr → PyStr
  | [] => []
  | c :: rest => (if c = ',' then [' ', ',', ' '] else [c]) ++ replaceCommas rest

/-- Python `s.split()`: split on runs of whitespace, dropping empty pieces. -/
def splitWs : PyStr → List PyStr
  | [] => []
  | c :: rest =>
    if isSpaceChar c then splitWs rest
    else
      match rest with
      | [] => [[c]]
      | c2 :: _ =>
        if isSpaceChar c2 then [c] :: splitWs rest
        else (splitWs rest).modifyHead (c :: ·)

/-- Python `s.split('$')`: split at every `'$'`, keeping empty pieces. -/
def splitDollar : PyStr → List PyStr
  | [] => [[]]
  | c :: rest =>
    if c = '$' then [] :: splitDollar rest
    else (splitDollar rest).modifyHead (c :: ·)

/-- Python `" ".join(l)`. -/
def joinSpace : List PyStr → PyStr
  | [] => []
  | [t] => t
  | t :: ts => t ++ ' ' :: joinSpace ts

/-- Python `",".join(l)` (used to reassemble comma-separated segments). -/
def joinComma : List PyStr → PyStr
  | [] => []
  | [t] => t
  | t :: ts => t ++ ',' :: joinComma ts

/-- The token `","`. -/
def tComma : PyStr := [',']
/-- The token `"("`. -/
def tLParen : PyStr := ['(']
/-- The token `")"`. -/
def tRParen : PyStr := [')']
/-- The token `"$"` (the `ref_char` of `get_split_comma`). -/
def tDollar : PyStr := ['$']

/-! ## `get_split_comma` (runner_jobs.py lines 518-534)

The Python loop mutates `input_list` in place, scanning left to right; at
index `i` it sees the already-mutated prefix `input_list[:i]` and the
untouched suffix `input_list[i+1:]`.  `markCommasAux acc rest` models one
loop state: `acc` is the mutated prefix, `rest` the untouched suffix.  The
`raise RuntimeError` branch is the `Except.error` case. -/

def markCommasAux : List PyStr → List PyStr → Except Unit (List PyStr)
  | acc, [] => .ok acc
  | acc, t :: rest =>
    if t = tComma then
      if acc.count tLParen = acc.count tRParen ∧
          rest.count tLParen = rest.count tRParen then
        if t = tDollar then .error ()
        else markCommasAux (acc ++ [tDollar]) rest
      else markCommasAux (acc ++ [t]) rest
    else markCommasAux (acc ++ [t]) rest

/-- `get_split_comma(input_str)` from runner_jobs.py. -/
def get_split_comma (input_str : PyStr) : Except Unit (Finset PyStr) := do
  let input_list := (splitWs (replaceCommas input_str)).map pyStrip
  let marked ← markCommasAux [] input_list
  let new_str := splitDollar (joinSpace marked)
  return (new_str.map pyStrip).toFinset

/-! ## `convert_to_string`, `is_all_same`, accuracies (runner_jobs.py 511-581)

A vocabulary (`form_manager`) is modelled as an arbitrary index-to-symbol
function `Nat → PyStr`. -/

/-- `convert_to_string(idx_list, form_manager)`. -/
def convert_to_string (idxList : List Nat) (formManager : Nat → PyStr) : PyStr :=
  joinSpace (idxList.map formManager)

/-- `is_all_same(c1, c2, form_manager)`.  The element-wise loop sets
`all_same` to `c1 = c2` when the lengths agree (and leaves it `True`
otherwise); the trailing `raise NotImplementedError` is the error case. -/
def is_all_same (c1 c2 : List Nat) (formManager : Nat → PyStr) : Except Unit Bool :=
  let allSame : Bool := if c1.length = c2.length then decide (c1 = c2) else true
  if c1.length = c2.length ∧ allSame = true then
    .ok true
  else if c1.length ≠ c2.length ∨ allSame = false then do
    let d1 := convert_to_string c1 formManager
    let d2 := convert_to_string c2 formManager
    let s1 ← get_split_comma d1
    let s2 ← get_split_comma d2
    return decide (s1 = s2)
  else
    .error ()

/-- The `for i in range(len_min)` loop of `compute_accuracy`, threading the
counter `c`; a raise inside `is_all_same` would propagate. -/
def accuracy_loop (candidateList referenceList : List (List Nat))
    (formManager : Nat → PyStr) : List Nat → Nat → Except Unit Nat
  | [], c => .ok c
  | i :: rest, c => do
    let b ← is_all_same (candidateList.getD i []) (referenceList.getD i []) formManager
    accuracy_loop candidateList referenceList formManager rest (if b then c + 1 else c)

/-- `compute_accuracy(candidate_list, reference_list, form_manager)`.
The division `c / float(len_min)` is modelled exactly in `ℚ`. -/
def compute_accuracy (candidateList referenceList : List (List Nat))
    (formManager : Nat → PyStr) : Except Unit ℚ := do
  let lenMin := min candidateList.length referenceList.length
  let c ← accuracy_loop candidateList referenceList formManager (List.range lenMin) 0
  return (c : ℚ) / (lenMin : ℚ)

/-- The copying loops at the head of `compute_tree_accuracy` rebuild each
list by appending its elements in order. -/
def copy_list (l : List α) : List α := l.foldl (fun acc x => acc ++ [x]) []

/-- `compute_tree_accuracy(candidate_list_, reference_list_, form_manager)`. -/
def compute_tree_accuracy (candidateList referenceList : List (List Nat))
    (formManager : Nat → PyStr) : Except Unit ℚ :=
  compute_accuracy (copy_list candidateList) (copy_list referenceList) formManager

/-! ## The parenthesis adjustment in `Jobs.eval` (runner_jobs.py 474-485)

`evalVocab` plays `eval_vocab.idx2symbol`.  In the `diff > 0` branch the
first loop iteration evaluates `self.test_data_loader.tgt_vocab`, but
`self.test_data_loader` is the plain torch `DataLoader` constructed at
line 302 (the commented-out `DataLoaderForGraphEncoder` was what carried a
`tgt_vocab`), and a torch `DataLoader` has no `tgt_vocab` attribute: the
branch raises `AttributeError` before appending anything.  It is therefore
the `Except.error` case; `diff > 0` guarantees the loop body runs. -/

/-- `sum(1 for c in candidate if eval_vocab.idx2symbol[int(c)] == p)`. -/
def parenCount (candidate : List Nat) (evalVocab : Nat → PyStr) (p : PyStr) : Nat :=
  (candidate.filter (fun c => evalVocab c = p)).length

def adjust_candidate (candidate : List Nat) (evalVocab : Nat → PyStr) :
    Except Unit (List Nat) :=
  let numLeftParen := parenCount candidate evalVocab tLParen
  let numRightParen := parenCount candidate evalVocab tRParen
  let diff : Int := (numLeftParen : Int) - (numRightParen : Int)
  if 0 < diff then .error ()
  else if diff < 0 then .ok (candidate.take (candidate.length - (-diff).toNat))
  else .ok candidate

/-! ## The marking loop never raises, and has a pure description -/

/-- Pure description of the marking loop: `lp`/`rp` are the counts of `"("`
and `")"` tokens in the (already processed) prefix.  Replacing a comma by
`"$"` changes neither count, so the carried counts agree with the mutated
prefix of the Python loop. -/
def markFrom (lp rp : Nat) : List PyStr → List PyStr
  | [] => []
  | t :: rest =>
    if t = tComma ∧ lp = rp ∧ rest.count tLParen = rest.count tRParen then
      tDollar :: markFrom lp rp rest
    else
      t :: markFrom (lp + List.count tLParen [t]) (rp + List.count tRParen [t]) rest


instance {ε α : Type _} [DecidableEq ε] [DecidableEq α] : DecidableEq (Except ε α) := fun a b =>
  match a, b with
  | .error e, .error f =>
    if h : e = f then .isTrue (by rw [h]) else .isFalse (fun k => h (by cases k; rfl))
  | .error _, .ok _ => .isFalse (fun h => Except.noConfusion h)
  | .ok _, .error _ => .isFalse (fun h => Except.noConfusion h)
  | .ok x, .ok y =>
    if h : x = y then .isTrue (by rw [h]) else .isFalse (fun k => h (by cases k; rfl))

/-- The number of indices `i < m` at which `is_all_same` holds. -/
def matchCount (candidateList referenceList : List (List Nat))
    (formManager : Nat → PyStr) (m : Nat) : Nat :=
  ((List.range m).filter (fun i =>
    decide (is_all_same (candidateList.getD i []) (referenceList.getD i []) formManager
      = .ok true))).length

/-! ## C7/C10: `Jobs.prepare_ext_vocab` (runner_jobs.py 348-358) -/

/-- Modelled from the spec: the `Vocab` class of
`graph4nlp/pytorch/modules/utils/tree_utils.py` is not under `src/`.
Following the spec's "OOV dictionary: dynamic per-example vocabulary
extension for out-of-vocabulary source tokens enabling copy", a vocabulary
is its index-to-symbol list together with a distinguished unknown token. -/
structure VocabM where
  idx2symbol : List PyStr
  unkTok : PyStr
deriving DecidableEq

/-- First index of `t` in the list, if present. -/
def vfind : List PyStr → PyStr → Option Nat
  | [], _ => none
  | x :: xs, t => if x = t then some 0 else (vfind xs t).map (· + 1)

/-- Modelled from the spec: `Vocab.get_symbol_idx` returns the symbol's
index, falling back to the unknown token's index for unseen symbols. -/
def getSymbolIdx (v : VocabM) (t : PyStr) : Nat :=
  match vfind v.idx2symbol t with
  | some i => i
  | none => (vfind v.idx2symbol v.unkTok).getD 0

/-- Modelled from the spec: `Vocab.add_symbol` appends a not-yet-present
symbol at the next free index and leaves present symbols untouched. -/
def addSymbol (v : VocabM) (t : PyStr) : VocabM :=
  if t ∈ v.idx2symbol then v else { v with idx2symbol := v.idx2symbol ++ [t] }

/-- A node of the batch graph, as read by `prepare_ext_vocab`:
`n['token']` and `n.get('type')` (absent attribute modelled as `none`). -/
structure NodeM where
  token : PyStr
  type? : Option Nat
deriving DecidableEq

instance : Inhabited NodeM := ⟨⟨[], none⟩⟩

/-- The `for n in batch_graph.node_attributes` loop: if the type is absent
or 0 and the token currently resolves to the unknown index, add it to the
dictionary; then append the token's (current) index to the matrix. -/
def prepExtLoop (oov : VocabM) : List NodeM → VocabM × List Nat
  | [] => (oov, [])
  | n :: rest =>
    let oov1 := if (n.type? = none ∨ n.type? = some 0) ∧
        getSymbolIdx oov n.token = getSymbolIdx oov oov.unkTok
      then addSymbol oov n.token else oov
    let r := prepExtLoop oov1 rest
    (r.1, getSymbolIdx oov1 n.token :: r.2)

/-- `Jobs.prepare_ext_vocab`: deep-copies `src_vocab`, runs the loop on the
copy, and returns `(oov_dict, token_matrix)`; the matrix becomes the
graph's `token_id_oov` node feature (in node order). -/
def prepare_ext_vocab (nodeAttributes : List NodeM) (srcVocab : VocabM) :
    VocabM × List Nat :=
  prepExtLoop srcVocab nodeAttributes


/-! ## C10: `prepare_ext_vocab` does not modify `src_vocab`

To state the frame property, the two Python objects are placed on an
explicit heap of `VocabM` cells; `copy.deepcopy(src_vocab)` allocates a
fresh cell, and every `oov_dict.add_symbol` writes to that cell only. -/

structure VStore where
  cells : List VocabM

def getCell (st : VStore) (r : Nat) : VocabM := st.cells.getD r ⟨[], []⟩

def setCell (st : VStore) (r : Nat) (v : VocabM) : VStore := ⟨st.cells.set r v⟩

/-- The body of the `prepare_ext_vocab` loop acting on the heap: reads and
writes go through the cell `oovRef`. -/
def prepExtLoopStore (oovRef : Nat) : VStore → List NodeM → VStore × List Nat
  | st, [] => (st, [])
  | st, n :: rest =>
    let cell := getCell st oovRef
    let st1 := if (n.type? = none ∨ n.type? = some 0) ∧
        getSymbolIdx cell n.token = getSymbolIdx cell cell.unkTok
      then setCell st oovRef (addSymbol cell n.token) else st
    let entry := getSymbolIdx (getCell st1 oovRef) n.token
    let r := prepExtLoopStore oovRef st1 rest
    (r.1, entry :: r.2)

/-- `Jobs.prepare_ext_vocab` on the heap: `copy.deepcopy(src_vocab)`
allocates a fresh cell holding the value of the source vocabulary;
the loop then mutates only that cell.  Returns (heap, oov reference,
token matrix). -/
def prepare_ext_vocab_store (st : VStore) (srcRef : Nat) (nodes : List NodeM) :
    VStore × Nat × List Nat :=
  let oovRef := st.cells.length
  let st1 : VStore := ⟨st.cells ++ [getCell st srcRef]⟩
  let r := prepExtLoopStore oovRef st1 nodes
  (r.1, oovRef, r.2)


/-! ## `StdRNNDecoder._run_forward_pass` (StdRNNDecoder.py 207-347)

Tensors are modelled pointwise over `ℝ`: a feature vector is `Nat → ℝ`
(`Feat`), a batched feature tensor is batch-indexed (`BFeat`), attention
scores and output distributions are `Nat → Nat → ℝ` (`BScores`).  The
learned modules (embedding, RNN cell, attention modules, linear layers)
and the per-step dropout draws are arbitrary function parameters of the
model; `unsqueeze`/`squeeze`/`view`/`expand` are identities in this
representation, and `torch.cat(_, dim=-1)` is `vcat` with the explicit
feature size of its first argument. -/

section Decoder
open scoped Classical

noncomputable section

abbrev Feat := Nat → ℝ
abbrev BFeat := Nat → Feat
abbrev BScores := Nat → Nat → ℝ
abbrev BMem := Nat → Nat → Feat
abbrev BCov := Nat → Nat → Feat

/-- `torch.cat((x, y), dim=-1)` where `x` has feature size `d`. -/
def vcat (d : Nat) (x y : Feat) : Feat := fun n => if n < d then x n else y (n - d)

/-- `torch.cat(l, dim=-1)` for a list of feature tensors whose leading
elements have size `d`; a singleton is returned unchanged. -/
def vcatList (d : Nat) : List Feat → Feat
  | [] => fun _ => 0
  | [x] => x
  | x :: xs => vcat d x (vcatList d xs)

/-- `torch.sigmoid`. -/
def sigmoidR (x : ℝ) : ℝ := 1 / (1 + Real.exp (-x))

/-- `torch.softmax(z, dim=-1)` over `V` entries. -/
def softmaxR (V : Nat) (z : Nat → ℝ) (v : Nat) : ℝ :=
  Real.exp (z v) / ∑ u ∈ Finset.range V, Real.exp (z u)

/-- `ret.scatter_add_(1, index, src)` over `S` source positions:
`ret[b, index[b, j]] += src[b, j]` for every `j < S`. -/
def scatter_add (S : Nat) (base : BScores) (index : Nat → Nat → Nat)
    (src : BScores) : BScores :=
  fun b v => base b v + ∑ j ∈ Finset.range S, if index b j = v then src b j else 0

/-- `torch.argmax(f, dim=-1)` over `V` entries (first maximising index). -/
def argmaxR (V : Nat) (f : Nat → ℝ) : Nat := ((List.range V).argmax f).getD 0

def listSum (l : List ℝ) : ℝ := l.foldr (· + ·) 0

def listMax : List ℝ → ℝ
  | [] => 0
  | [x] => x
  | x :: y :: t => max x (listMax (y :: t))

inductive RnnTypeM | lstm | gru
deriving DecidableEq

inductive AttnTypeM | uniform | sepDiffEncoderType | sepDiffNodeType
deriving DecidableEq

inductive FuseM | average | concatenate
deriving DecidableEq

inductive CoverageM | sum | max
deriving DecidableEq

/-- The RNN hidden state: an LSTM carries `(h, c)`, a GRU carries `h`. -/
inductive RnnStateM
  | lstmState (h c : BFeat)
  | gruState (h : BFeat)

/-- The decoder's configuration and learned modules.  Dropout is a fresh
random mask at each call, modelled as an arbitrary step-indexed function
per call site. -/
structure DecoderM where
  maxDecoderStep : Nat
  vocabSize : Nat
  sosIdx : Nat
  rnnType : RnnTypeM
  attentionType : AttnTypeM
  fuseStrategy : FuseM
  useAttention : Bool
  useCopy : Bool
  useCoverage : Bool
  coverageStrategy : CoverageM
  tgtEmbAsOutputLayer : Bool
  nodeTypeNum : Nat
  hiddenSize : Nat
  inputSize : Nat
  wordEmbSize : Nat
  tgtEmb : Nat → Feat
  dropEmb : Nat → BFeat → BFeat
  dropStateH : Nat → BFeat → BFeat
  dropStateC : Nat → BFeat → BFeat
  dropOut : Nat → BFeat → BFeat
  rnn : BFeat → RnnStateM → BFeat × RnnStateM
  encAttention : BFeat → BMem → Option BScores → Option BCov → BFeat × BScores
  rnnAttention : BFeat → Option BMem → Option BCov → BFeat × BScores
  attnModules : Nat → BFeat → BMem → Option BScores → Option BCov → BFeat × BScores
  coverageWeight : Feat
  preOut : Feat → Feat
  outProject : Feat → Nat → ℝ
  ptr : Feat → ℝ
  adapter0 : BFeat → BFeat
  adapter1 : BFeat → BFeat
  adapterG : BFeat → BFeat
  rand : Nat → ℝ

/-- The arguments of `_run_forward_pass`. -/
structure ForwardInputs where
  batchSize : Nat
  srcLen : Nat
  graphNodeEmbedding : BMem
  graphNodeMask : Option BScores
  rnnNodeEmbedding : Option BMem
  graphLevelEmbedding : Option BFeat
  tgtSeq : Option (Nat → Nat → Nat)
  tgtLen : Nat
  srcSeq : Nat → Nat → Nat
  teacherForcingRate : ℝ

/-- `self.extract_mask(mask, token)`. -/
def extract_mask (mask : BScores) (token : ℝ) : BScores :=
  fun b n => if mask b n = token then 1 else 0

/-- `torch.cat(decoder_state, -1).squeeze(0)` for LSTM,
`decoder_state.squeeze(0)` for GRU. -/
def hiddenOf (M : DecoderM) (st : RnnStateM) : BFeat :=
  match st with
  | .lstmState h c => fun b => vcat M.hiddenSize (h b) (c b)
  | .gruState h => h

/-- Feature size of `hidden`. -/
def hiddenDim (M : DecoderM) : Nat :=
  match M.rnnType with
  | .lstm => 2 * M.hiddenSize
  | .gru => M.hiddenSize

/-- `tuple([self.dropout(x) for x in rnn_state])` (LSTM) /
`self.dropout(rnn_state)` (GRU). -/
def dropStateM (M : DecoderM) (i : Nat) : RnnStateM → RnnStateM
  | .lstmState h c => .lstmState (M.dropStateH i h) (M.dropStateC i c)
  | .gruState h => .gruState (M.dropStateH i h)

/-- `get_coverage_vector(enc_attn_weights)` (lines 161-168): the per-step
score tensors are stacked along a new leading dim and reduced by sum or
max over it. -/
def get_coverage_vector (M : DecoderM) (encAttnWeights : List BScores) : BScores :=
  match M.coverageStrategy with
  | .sum => fun b n => listSum (encAttnWeights.map (fun s => s b n))
  | .max => fun b n => listMax (encAttnWeights.map (fun s => s b n))

/-- `coverage_vec.unsqueeze(-1) * self.coverage_weight`. -/
def coverageReprM (M : DecoderM) (cv : BScores) : BCov :=
  fun b n h => cv b n * M.coverageWeight h

structure StepResult where
  decOut : BFeat
  state : RnnStateM
  attnCollect : List BFeat
  scoreCollect : List BScores

/-- `_decode_step` (lines 349-390).  `enc_mask` is hardcoded `None` for the
uniform/sep-encoder attention (line 373 of the source). -/
def decode_step (M : DecoderM) (i : Nat) (decInputEmb : BFeat) (rnnState : RnnStateM)
    (decInputMask : Option BScores) (encoderOut : BMem) (rnnEmb : Option BMem)
    (coverageVec : Option BScores) : StepResult :=
  let r := M.rnn decInputEmb rnnState
  let rnnState1 := dropStateM M i r.2
  let hidden := hiddenOf M rnnState1
  let coverageRepr : Option BCov :=
    if M.useCoverage then coverageVec.map (coverageReprM M) else none
  if M.useAttention then
    match M.attentionType with
    | .uniform =>
      let ar := M.encAttention hidden encoderOut none coverageRepr
      ⟨r.1, rnnState1, [ar.1], [ar.2]⟩
    | .sepDiffEncoderType =>
      let ar := M.encAttention hidden encoderOut none coverageRepr
      let rr := M.rnnAttention hidden rnnEmb coverageRepr
      ⟨r.1, rnnState1, [ar.1, rr.1], [ar.2, rr.2]⟩
    | .sepDiffNodeType =>
      let results := (List.range M.nodeTypeNum).map (fun k =>
        M.attnModules k hidden encoderOut
          (decInputMask.map (fun m => extract_mask m (k : ℝ)))
          coverageRepr)
      ⟨r.1, rnnState1, results.map (·.1), results.map (·.2)⟩
  else
    ⟨r.1, rnnState1, [], []⟩

/-- `_get_decoder_init_state` (lines 392-414). -/
def get_decoder_init_state (M : DecoderM) (inp : ForwardInputs) : RnnStateM :=
  match M.rnnType, inp.graphLevelEmbedding with
  | .lstm, some content => .lstmState (M.adapter0 content) (M.adapter1 content)
  | .lstm, none => .lstmState (fun _ _ => 0) (fun _ _ => 0)
  | .gru, some content => .gruState (M.adapterG content)
  | .gru, none => .gruState (fun _ _ => 0)

/-- The loop state of `_run_forward_pass` (`embed`, `dec_hidden` and
`attn_results_all` are also accumulated in the source but never read
afterwards; they are omitted). -/
structure LoopState where
  decoderInput : Nat → Nat
  decoderState : RnnStateM
  outputs : List BScores
  encAttnWeightsAverage : List BScores
  coverageVectors : List (Option BScores)

def targetLen (M : DecoderM) (inp : ForwardInputs) : Nat :=
  match inp.tgtSeq with
  | some _ => min inp.tgtLen M.maxDecoderStep
  | none => M.maxDecoderStep

def initLoopState (M : DecoderM) (inp : ForwardInputs) : LoopState :=
  { decoderInput := fun _ => M.sosIdx
    decoderState := get_decoder_init_state M inp
    outputs := []
    encAttnWeightsAverage := []
    coverageVectors := [] }

/-! The body of the decoding loop (lines 267-345), split into the named
intermediate quantities of the source.  Quantities that the source defines
only under `use_attention` (`attn_total`, `dec_attn_scores`) are given junk
defaults outside it; the theorems about them assume `use_attention`. -/

/-- `dec_emb = self.dropout(self.tgt_emb(decoder_input))`. -/
def lsDecEmb (M : DecoderM) (i : Nat) (ls : LoopState) : BFeat :=
  M.dropEmb i (fun b => M.tgtEmb (ls.decoderInput b))

/-- `coverage_vec` at the head of step `i` (lines 271-274). -/
def lsCoverageVec (M : DecoderM) (ls : LoopState) : Option BScores :=
  if M.useCoverage ∧ ls.encAttnWeightsAverage ≠ [] then
    some (get_coverage_vector M ls.encAttnWeightsAverage)
  else none

def lsStepResult (M : DecoderM) (inp : ForwardInputs) (i : Nat) (ls : LoopState) :
    StepResult :=
  decode_step M i (lsDecEmb M i ls) ls.decoderState inp.graphNodeMask
    inp.graphNodeEmbedding inp.rnnNodeEmbedding (lsCoverageVec M ls)

def lsHidden (M : DecoderM) (inp : ForwardInputs) (i : Nat) (ls : LoopState) : BFeat :=
  hiddenOf M (lsStepResult M inp i ls).state

/-- `attn_total` (lines 287-297). -/
def lsAttnTotal (M : DecoderM) (inp : ForwardInputs) (i : Nat) (ls : LoopState) : BFeat :=
  match M.attentionType with
  | .uniform => (lsStepResult M inp i ls).attnCollect.getD 0 (fun _ _ => 0)
  | _ =>
    match M.fuseStrategy with
    | .average => fun b n =>
        listSum ((lsStepResult M inp i ls).attnCollect.map (fun a => a b n)) /
          ((lsStepResult M inp i ls).attnCollect.length : ℝ)
    | .concatenate => fun b =>
        vcatList M.inputSize ((lsStepResult M inp i ls).attnCollect.map (· b))

/-- `dec_attn_scores = reduce(+, score_results) / len(score_results)`. -/
def lsScoresAvg (M : DecoderM) (inp : ForwardInputs) (i : Nat) (ls : LoopState) : BScores :=
  fun b n =>
    listSum ((lsStepResult M inp i ls).scoreCollect.map (fun s => s b n)) /
      ((lsStepResult M inp i ls).scoreCollect.length : ℝ)

/-- `decoder_output` after the attention concatenation (line 301). -/
def lsDecOutCat (M : DecoderM) (inp : ForwardInputs) (i : Nat) (ls : LoopState) : BFeat :=
  if M.useAttention then
    fun b => vcat M.hiddenSize ((lsStepResult M inp i ls).decOut b) (lsAttnTotal M inp i ls b)
  else (lsStepResult M inp i ls).decOut

/-- `decoder_output = self.out_project(self.dropout(out_embed))`
(lines 313-318). -/
def lsLogits (M : DecoderM) (inp : ForwardInputs) (i : Nat) (ls : LoopState) : BScores :=
  let outEmbed : BFeat :=
    if M.tgtEmbAsOutputLayer then
      fun b n => Real.tanh (M.preOut (lsDecOutCat M inp i ls b) n)
    else lsDecOutCat M inp i ls
  fun b => M.outProject (M.dropOut i outEmbed b)

/-- `attn_ptr = torch.cat(dec_attn_results, dim=-1)`. -/
def lsAttnPtr (M : DecoderM) (inp : ForwardInputs) (i : Nat) (ls : LoopState) : BFeat :=
  fun b => vcatList M.inputSize ((lsStepResult M inp i ls).attnCollect.map (· b))

/-- `torch.cat(pgen_collect, -1)` with `pgen_collect = [dec_emb, hidden, attn_ptr]`. -/
def lsPgen (M : DecoderM) (inp : ForwardInputs) (i : Nat) (ls : LoopState) : BFeat :=
  fun b => vcat M.wordEmbSize (lsDecEmb M i ls b)
    (vcat (hiddenDim M) (lsHidden M inp i ls b) (lsAttnPtr M inp i ls b))

/-- `prob_ptr = torch.sigmoid(self.ptr(torch.cat(pgen_collect, -1)))`. -/
def lsProbPtr (M : DecoderM) (inp : ForwardInputs) (i : Nat) (ls : LoopState) : Nat → ℝ :=
  fun b => sigmoidR (M.ptr (lsPgen M inp i ls b))

/-- The per-step output distribution (lines 320-335): the pointer-generator
mixture under `use_copy`, plain softmax otherwise. -/
def lsOutput (M : DecoderM) (inp : ForwardInputs) (i : Nat) (ls : LoopState) : BScores :=
  if M.useCopy then
    scatter_add inp.srcLen
      (fun b v => (1 - lsProbPtr M inp i ls b) * softmaxR M.vocabSize (lsLogits M inp i ls b) v)
      inp.srcSeq
      (fun b j => lsProbPtr M inp i ls b * lsScoresAvg M inp i ls b j)
  else
    fun b v => softmaxR M.vocabSize (lsLogits M inp i ls b) v

/-- The next decoder input (lines 338-344): one draw of `random.random()`
per step decides teacher forcing for the whole batch. -/
def lsNextInput (M : DecoderM) (inp : ForwardInputs) (i : Nat) (ls : LoopState) :
    Nat → Nat :=
  match inp.tgtSeq with
  | some tgt =>
    if M.rand i < inp.teacherForcingRate then fun b => tgt b i
    else fun b => argmaxR M.vocabSize (lsOutput M inp i ls b)
  | none => fun b => argmaxR M.vocabSize (lsOutput M inp i ls b)

/-- One iteration of the decoding loop. -/
def stepLoop (M : DecoderM) (inp : ForwardInputs) (i : Nat) (ls : LoopState) : LoopState :=
  { decoderInput := lsNextInput M inp i ls
    decoderState := (lsStepResult M inp i ls).state
    outputs := ls.outputs ++ [lsOutput M inp i ls]
    encAttnWeightsAverage :=
      if M.useAttention then ls.encAttnWeightsAverage ++ [lsScoresAvg M inp i ls]
      else ls.encAttnWeightsAverage
    coverageVectors :=
      if M.useAttention then ls.coverageVectors ++ [lsCoverageVec M ls]
      else ls.coverageVectors }

/-- The loop state before step `i`. -/
def runLoop (M : DecoderM) (inp : ForwardInputs) : Nat → LoopState
  | 0 => initLoopState M inp
  | i + 1 => stepLoop M inp i (runLoop M inp i)

/-- `_run_forward_pass` returns `(torch.cat(outputs, dim=1),
enc_attn_weights_average, coverage_vectors)`. -/
def run_forward_pass (M : DecoderM) (inp : ForwardInputs) :
    (Nat → BScores) × List BScores × List (Option BScores) :=
  let final := runLoop M inp (targetLen M inp)
  (fun i => final.outputs.getD i (fun _ _ => 0),
   final.encAttnWeightsAverage, final.coverageVectors)

/-- The output distribution produced at step `i`. -/
def stepOutput (M : DecoderM) (inp : ForwardInputs) (i : Nat) : BScores :=
  lsOutput M inp i (runLoop M inp i)

/-- The averaged attention scores produced at step `i`. -/
def stepScoresAvg (M : DecoderM) (inp : ForwardInputs) (i : Nat) : BScores :=
  lsScoresAvg M inp i (runLoop M inp i)

/-- The coverage vector supplied to the attention module at step `i`. -/
def stepCoverageVec (M : DecoderM) (inp : ForwardInputs) (i : Nat) : Option BScores :=
  lsCoverageVec M (runLoop M inp i)

/-- `prob_ptr` at step `i`. -/
def stepProbPtr (M : DecoderM) (inp : ForwardInputs) (i : Nat) : Nat → ℝ :=
  lsProbPtr M inp i (runLoop M inp i)

/-- The logits projected at step `i`. -/
def stepLogits (M : DecoderM) (inp : ForwardInputs) (i : Nat) : BScores :=
  lsLogits M inp i (runLoop M inp i)

/-- `torch.cat(pgen_collect, -1)` at step `i`. -/
def stepPgen (M : DecoderM) (inp : ForwardInputs) (i : Nat) : BFeat :=
  lsPgen M inp i (runLoop M inp i)

end

end Decoder

/-- A concrete decoder configuration and input batch used to witness the
decoder theorems. -/
noncomputable def demoDecoder : DecoderM :=
  { maxDecoderStep := 1, vocabSize := 1, sosIdx := 0,
    rnnType := .lstm, attentionType := .uniform, fuseStrategy := .average,
    useAttention := true, useCopy := true, useCoverage := true,
    coverageStrategy := .sum, tgtEmbAsOutputLayer := false, nodeTypeNum := 0,
    hiddenSize := 1, inputSize := 1, wordEmbSize := 1,
    tgtEmb := fun _ _ => 0, dropEmb := fun _ x => x,
    dropStateH := fun _ x => x, dropStateC := fun _ x => x,
    dropOut := fun _ x => x,
    rnn := fun x st => (x, st),
    encAttention := fun _ _ _ _ => (fun _ _ => 0, fun _ _ => 0),
    rnnAttention := fun _ _ _ => (fun _ _ => 0, fun _ _ => 0),
    attnModules := fun _ _ _ _ _ => (fun _ _ => 0, fun _ _ => 0),
    coverageWeight := fun _ => 0, preOut := id, outProject := fun x => x,
    ptr := fun _ => 0, adapter0 := id, adapter1 := id, adapterG := id,
    rand := fun _ => 0 }

noncomputable def demoInputs : ForwardInputs :=
  { batchSize := 1, srcLen := 1,
    graphNodeEmbedding := fun _ _ _ => 0, graphNodeMask := none,
    rnnNodeEmbedding := none, graphLevelEmbedding := none,
    tgtSeq := some (fun _ _ => 0), tgtLen := 1,
    srcSeq := fun _ _ => 0, teacherForcingRate := 1 }

/-! ## Spec-side segmentation (the claims' "top-level comma" splitting) -/

/-- `input_str.replace(",", " , ").split()`: the whitespace token list of a
string, with commas isolated as their own tokens. -/
def tokenize (s : PyStr) : List PyStr := splitWs (replaceCommas s)

/-- The claims' "top-level comma": position `i` holds a `","` token and the
`"("`/`")"` token counts strictly before and strictly after it agree (the
balance notion the code uses). -/
def isTopLevelComma (toks : List PyStr) (i : Nat) : Prop :=
  toks.getD i [] = tComma ∧
  (toks.take i).count tLParen = (toks.take i).count tRParen ∧
  (toks.drop (i + 1)).count tLParen = (toks.drop (i + 1)).count tRParen

instance (toks : List PyStr) (i : Nat) : Decidable (isTopLevelComma toks i) :=
  inferInstanceAs (Decidable (_ ∧ _ ∧ _))

/-- Marks of the token positions: `none` at a top-level comma. -/
def markSpecOpt (toks : List PyStr) : List (Option PyStr) :=
  (List.range toks.length).map
    (fun i => if isTopLevelComma toks i then none else some (toks.getD i []))

/-- Split a marked list at its `none` positions (keeping empty runs). -/
def splitAtNone : List (Option PyStr) → List (List PyStr)
  | [] => [[]]
  | none :: rest => [] :: splitAtNone rest
  | some t :: rest =>
    match splitAtNone rest with
    | r :: rs => (t :: r) :: rs
    | [] => [[t]]

/-- The token runs between top-level commas. -/
def specRuns (toks : List PyStr) : List (List PyStr) := splitAtNone (markSpecOpt toks)

/-- The whitespace-trimmed segment strings between top-level commas. -/
def specSegStrings (toks : List PyStr) : List PyStr :=
  (specRuns toks).map (fun run => pyStrip (joinSpace run))

/-- The set of whitespace-trimmed top-level comma segments of a string. -/
def specSegSet (s : PyStr) : Finset PyStr := (specSegStrings (tokenize s)).toFinset

/-- Split a token list at its `"$"` tokens (keeping empty runs). -/
def splitToksAtDollar : List PyStr → List (List PyStr)
  | [] => [[]]
  | t :: rest =>
    if t = tDollar then [] :: splitToksAtDollar rest
    else
      match splitToksAtDollar rest with
      | r :: rs => (t :: r) :: rs
      | [] => [[t]]

/-- Join token runs with `","` tokens in between. -/
def interComma : List (List PyStr) → List PyStr
  | [] => []
  | [r] => r
  | r :: rs => r ++ tComma :: interComma rs

theorem markCommasAux_eq (rest : List PyStr) :
    ∀ acc, markCommasAux acc rest =
      .ok (acc ++ markFrom (acc.count tLParen) (acc.count tRParen) rest) := by
  induction rest with
  | nil => intro acc; simp [markCommasAux, markFrom]
  | cons t rest ih =>
    intro acc
    by_cases hc : t = tComma
    · subst hc
      by_cases hcnt : acc.count tLParen = acc.count tRParen ∧
          rest.count tLParen = rest.count tRParen
      · have hd : (tComma = tDollar) = False := by simp [tComma, tDollar]
        rw [markCommasAux, if_pos rfl, if_pos hcnt, if_neg (by simp [tComma, tDollar]), ih]
        rw [markFrom, if_pos ⟨rfl, hcnt⟩]
        simp [List.count_append, tComma, tDollar, tLParen, tRParen]
      · rw [markCommasAux, if_pos rfl, if_neg hcnt, ih]
        rw [markFrom, if_neg (by intro h; exact hcnt ⟨h.2.1, h.2.2⟩)]
        simp [List.count_append]
    · rw [markCommasAux, if_neg hc, ih]
      rw [markFrom, if_neg (by intro h; exact hc h.1)]
      simp [List.count_append]

/-- `get_split_comma` never raises; its value is given by the pure marking. -/
theorem get_split_comma_eq (s : PyStr) :
    get_split_comma s =
      .ok (((splitDollar (joinSpace
          (markFrom 0 0 ((splitWs (replaceCommas s)).map pyStrip)))).map pyStrip).toFinset) := by
  have h := markCommasAux_eq ((splitWs (replaceCommas s)).map pyStrip) []
  simp only [List.count_nil, List.nil_append] at h
  simp only [get_split_comma, h]
  rfl

/-- `is_all_same` never raises. -/
theorem is_all_same_ok (c1 c2 : List Nat) (fm : Nat → PyStr) :
    ∃ b, is_all_same c1 c2 fm = .ok b := by
  unfold is_all_same
  by_cases h1 : c1.length = c2.length ∧
      (if c1.length = c2.length then decide (c1 = c2) else true) = true
  · exact ⟨true, by rw [if_pos h1]⟩
  · rw [if_neg h1]
    have h2 : c1.length ≠ c2.length ∨
        (if c1.length = c2.length then decide (c1 = c2) else true) = false := by
      by_cases hl : c1.length = c2.length
      · right
        rcases Bool.eq_false_or_eq_true (if c1.length = c2.length then decide (c1 = c2) else true)
          with hb | hb
        · exact absurd ⟨hl, hb⟩ h1
        · exact hb
      · exact Or.inl hl
    rw [if_pos h2]
    simp only [get_split_comma_eq]
    exact ⟨_, rfl⟩

/-- C9: for every pair of token-index lists and every vocabulary,
`is_all_same` returns a Boolean and never raises (neither its final
`NotImplementedError` nor the `RuntimeError` branch in `get_split_comma`
is reachable). -/
theorem c9_never_raises :
    (∀ (c1 c2 : List Nat) (fm : Nat → PyStr), ∃ b, is_all_same c1 c2 fm = .ok b) ∧
    (∀ s : PyStr, ∃ r, get_split_comma s = .ok r) :=
  ⟨is_all_same_ok, fun s => ⟨_, get_split_comma_eq s⟩⟩


/-! ## C5: tree accuracy -/

theorem accuracy_loop_eq (cand ref : List (List Nat)) (fm : Nat → PyStr) :
    ∀ (l : List Nat) (c : Nat),
      accuracy_loop cand ref fm l c =
        .ok (c + (l.filter (fun i =>
          decide (is_all_same (cand.getD i []) (ref.getD i []) fm = .ok true))).length) := by
  intro l
  induction l with
  | nil => intro c; simp [accuracy_loop]
  | cons i l ih =>
    intro c
    obtain ⟨b, hb⟩ := is_all_same_ok (cand.getD i []) (ref.getD i []) fm
    rw [accuracy_loop, hb, show (Except.ok b : Except Unit Bool) = pure b from rfl, pure_bind]
    cases b with
    | true =>
      rw [ih, List.filter_cons_of_pos (by simp only [decide_eq_true_eq]; rw [hb])]
      exact congrArg Except.ok (by simp; omega)
    | false =>
      rw [ih, List.filter_cons_of_neg (by simp only [decide_eq_true_eq]; rw [hb]; simp)]
      rfl

theorem compute_accuracy_eq (cand ref : List (List Nat)) (fm : Nat → PyStr) :
    compute_accuracy cand ref fm =
      .ok ((matchCount cand ref fm (min cand.length ref.length) : ℚ) /
        ((min cand.length ref.length : Nat) : ℚ)) := by
  simp only [compute_accuracy, matchCount, accuracy_loop_eq, Nat.zero_add]
  rfl

theorem copy_list_eq (l : List α) : copy_list l = l := by
  have h : ∀ (l acc : List α), l.foldl (fun acc x => acc ++ [x]) acc = acc ++ l := by
    intro l
    induction l with
    | nil => intro acc; simp
    | cons x l ih => intro acc; simp [List.foldl_cons, ih]
  simpa using h l []

/-- C5: for non-empty candidate and reference lists, `compute_tree_accuracy`
returns `c / m` with `m` the shorter length and `c` the number of indices
below `m` where `is_all_same` holds (later pairs are ignored), and
`compute_tree_accuracy` agrees with `compute_accuracy` on all inputs. -/
theorem c5_tree_accuracy (fm : Nat → PyStr) :
    (∀ cand ref : List (List Nat), cand ≠ [] → ref ≠ [] →
      compute_tree_accuracy cand ref fm =
        .ok ((matchCount cand ref fm (min cand.length ref.length) : ℚ) /
          ((min cand.length ref.length : Nat) : ℚ))) ∧
    (∀ cand ref : List (List Nat),
      compute_tree_accuracy cand ref fm = compute_accuracy cand ref fm) := by
  constructor
  · intro cand ref _ _
    rw [compute_tree_accuracy, copy_list_eq, copy_list_eq, compute_accuracy_eq]
  · intro cand ref
    rw [compute_tree_accuracy, copy_list_eq, copy_list_eq]

theorem c5_tree_accuracy_witness :
    compute_tree_accuracy [[0]] [[0], [1]] (fun _ => [Char.ofNat 97]) =
      .ok ((matchCount [[0]] [[0], [1]] (fun _ => [Char.ofNat 97])
        (min ([[0]] : List (List Nat)).length ([[0], [1]] : List (List Nat)).length) : ℚ) /
        ((min ([[0]] : List (List Nat)).length ([[0], [1]] : List (List Nat)).length : Nat) : ℚ)) :=
  (c5_tree_accuracy (fun _ => [Char.ofNat 97])).1 [[0]] [[0], [1]]
    (by decide) (by decide)

/-! ## C8: parenthesis adjustment before scoring -/

theorem filter_disjoint_length_le (l : List Nat) (p q : Nat → Bool)
    (h : ∀ x, p x = true → q x = false) :
    (l.filter p).length + (l.filter q).length ≤ l.length := by
  induction l with
  | nil => simp
  | cons a l ih =>
    by_cases hp : p a = true
    · rw [List.filter_cons_of_pos hp, List.filter_cons_of_neg (by simp [h a hp])]
      simp only [List.length_cons]
      omega
    · rw [List.filter_cons_of_neg (by simpa using hp)]
      by_cases hq : q a = true
      · rw [List.filter_cons_of_pos hq]
        simp only [List.length_cons]
        omega
      · rw [List.filter_cons_of_neg (by simpa using hq)]
        simp only [List.length_cons]
        omega

theorem parenCount_take_drop (cand : List Nat) (sym : Nat → PyStr) (p : PyStr) (k : Nat) :
    parenCount (cand.take k) sym p + parenCount (cand.drop k) sym p
      = parenCount cand sym p := by
  unfold parenCount
  rw [← List.length_append, ← List.filter_append, List.take_append_drop]

theorem parenCount_le_length (cand : List Nat) (sym : Nat → PyStr) (p : PyStr) :
    parenCount cand sym p ≤ cand.length :=
  List.length_filter_le _ _

/-- C8 as stated is false on both branches.  With symbols `0 ↦ ")"`,
`1 ↦ "("`: the candidate `[1]` (i.e. `"("`) has one more `"("` than `")"`,
but instead of appending a `")"` token the code raises `AttributeError`
(`self.test_data_loader.tgt_vocab` does not exist on the torch
`DataLoader`), so no balanced candidate is produced; and the candidate
`[0, 0, 1]` (i.e. `") ) ("`) is truncated to `[0, 0]`, which has zero
`"("` and two `")"`. -/
theorem c8_counterexample :
    adjust_candidate [1] (fun n => if n = 0 then tRParen else tLParen) = .error () ∧
    adjust_candidate [0, 0, 1] (fun n => if n = 0 then tRParen else tLParen) = .ok [0, 0] ∧
    parenCount [0, 0] (fun n => if n = 0 then tRParen else tLParen) tLParen ≠
      parenCount [0, 0] (fun n => if n = 0 then tRParen else tLParen) tRParen := by
  refine ⟨by decide, by decide, by decide⟩

/-- C8 (amended): with `d` the difference of `"("` and `")"` counts, the
adjustment raises `AttributeError` when `d > 0` (the append reads the
nonexistent `tgt_vocab` attribute of the torch `DataLoader`, so no token
is ever appended), removes exactly the last `d` tokens when `d < 0` (which
leaves at most as many `"("` as `")"`, but not necessarily equal counts),
and leaves the candidate unchanged when `d = 0`; whenever a candidate is
returned at all, it has at most as many `"("` as `")"` symbols. -/
theorem c8_adjust_candidate (cand : List Nat) (sym : Nat → PyStr) :
    (parenCount cand sym tRParen < parenCount cand sym tLParen →
      adjust_candidate cand sym = .error ()) ∧
    (parenCount cand sym tLParen < parenCount cand sym tRParen →
      adjust_candidate cand sym =
        .ok (cand.take (cand.length -
          (parenCount cand sym tRParen - parenCount cand sym tLParen)))) ∧
    (parenCount cand sym tLParen = parenCount cand sym tRParen →
      adjust_candidate cand sym = .ok cand) ∧
    (∀ result, adjust_candidate cand sym = .ok result →
      parenCount result sym tLParen ≤ parenCount result sym tRParen) := by
  set L := parenCount cand sym tLParen with hL
  set R := parenCount cand sym tRParen with hR
  have hadj : adjust_candidate cand sym =
      if (0 : Int) < (L : Int) - (R : Int) then .error ()
      else if (L : Int) - (R : Int) < 0 then
        .ok (cand.take (cand.length - (-((L : Int) - (R : Int))).toNat))
      else .ok cand := rfl
  have hgt : R < L → adjust_candidate cand sym = .error () := by
    intro h
    rw [hadj, if_pos (by omega)]
  have hlt : L < R → adjust_candidate cand sym =
      .ok (cand.take (cand.length - (R - L))) := by
    intro h
    rw [hadj, if_neg (by omega), if_pos (by omega),
      show (-((L : Int) - (R : Int))).toNat = R - L from by omega]
  have heq : L = R → adjust_candidate cand sym = .ok cand := by
    intro h
    rw [hadj, if_neg (by omega), if_neg (by omega)]
  refine ⟨hgt, hlt, heq, ?_⟩
  intro result hres
  rcases Nat.lt_trichotomy L R with h | h | h
  · rw [hlt h] at hres
    have hres2 : cand.take (cand.length - (R - L)) = result := by injection hres
    subst hres2
    set k := cand.length - (R - L) with hk
    have h1 := parenCount_take_drop cand sym tLParen k
    have h2 := parenCount_take_drop cand sym tRParen k
    have h3 := filter_disjoint_length_le (cand.drop k)
      (fun c => decide (sym c = tLParen)) (fun c => decide (sym c = tRParen))
      (by
        intro x hx
        simp only [decide_eq_true_eq] at hx
        simp only [decide_eq_false_iff_not, hx]
        simp [tLParen, tRParen])
    have h4 : (cand.drop k).length = cand.length - k := List.length_drop k cand
    have h5 : R ≤ cand.length := parenCount_le_length cand sym tRParen
    have h6 : parenCount (cand.drop k) sym tLParen + parenCount (cand.drop k) sym tRParen
        ≤ (cand.drop k).length := h3
    omega
  · rw [heq h] at hres
    have hres2 : cand = result := by injection hres
    subst hres2
    omega
  · rw [hgt h] at hres
    exact Except.noConfusion hres

theorem c8_adjust_candidate_witness :
    adjust_candidate [0, 0, 1] (fun n => if n = 0 then tRParen else tLParen) =
      .ok ([0, 0, 1].take ([0, 0, 1].length -
        (parenCount [0, 0, 1] (fun n => if n = 0 then tRParen else tLParen) tRParen -
          parenCount [0, 0, 1] (fun n => if n = 0 then tRParen else tLParen) tLParen))) :=
  (c8_adjust_candidate [0, 0, 1] (fun n => if n = 0 then tRParen else tLParen)).2.1
    (by decide)

theorem vfind_of_mem {l : List PyStr} {t : PyStr} (h : t ∈ l) :
    ∃ i, vfind l t = some i := by
  induction l with
  | nil => cases h
  | cons x xs ih =>
    by_cases hx : x = t
    · exact ⟨0, by rw [vfind, if_pos hx]⟩
    · have : t ∈ xs := by
        rcases List.mem_cons.1 h with h1 | h1
        · exact absurd h1.symm hx
        · exact h1
      obtain ⟨i, hi⟩ := ih this
      exact ⟨i + 1, by rw [vfind, if_neg hx, hi]; rfl⟩

theorem vfind_of_not_mem {l : List PyStr} {t : PyStr} (h : t ∉ l) :
    vfind l t = none := by
  induction l with
  | nil => rfl
  | cons x xs ih =>
    rw [vfind, if_neg (fun hx => h (by rw [← hx]; exact List.mem_cons_self x xs)),
      ih (fun hx => h (List.mem_cons_of_mem x hx))]
    rfl

theorem vfind_getD {l : List PyStr} {t : PyStr} {i : Nat} (h : vfind l t = some i) :
    l.getD i [] = t := by
  induction l generalizing i with
  | nil => cases h
  | cons x xs ih =>
    by_cases hx : x = t
    · rw [vfind, if_pos hx] at h
      cases h
      simpa using hx
    · rw [vfind, if_neg hx] at h
      cases hfind : vfind xs t with
      | none => rw [hfind] at h; cases h
      | some j =>
        rw [hfind] at h
        cases h
        simpa using ih hfind

theorem vfind_append_of_mem {l : List PyStr} {t : PyStr} (ext : List PyStr) (h : t ∈ l) :
    vfind (l ++ ext) t = vfind l t := by
  induction l with
  | nil => cases h
  | cons x xs ih =>
    by_cases hx : x = t
    · rw [List.cons_append, vfind, if_pos hx, vfind, if_pos hx]
    · have : t ∈ xs := by
        rcases List.mem_cons.1 h with h1 | h1
        · exact absurd h1.symm hx
        · exact h1
      rw [List.cons_append, vfind, if_neg hx, vfind, if_neg hx, ih this]

/-- Looking up a symbol that is not in the dictionary gives exactly the
unknown token's index. -/
theorem getSymbolIdx_of_not_mem {v : VocabM} {t : PyStr} (h : t ∉ v.idx2symbol) :
    getSymbolIdx v t = getSymbolIdx v v.unkTok := by
  unfold getSymbolIdx
  rw [vfind_of_not_mem h]
  cases hu : vfind v.idx2symbol v.unkTok <;> simp [hu]

/-- Present symbols distinct from the unknown token resolve to an index
different from the unknown token's. -/
theorem getSymbolIdx_ne_unk {v : VocabM} {t : PyStr} (ht : t ∈ v.idx2symbol)
    (hu : v.unkTok ∈ v.idx2symbol) (hne : t ≠ v.unkTok) :
    getSymbolIdx v t ≠ getSymbolIdx v v.unkTok := by
  obtain ⟨i, hi⟩ := vfind_of_mem ht
  obtain ⟨j, hj⟩ := vfind_of_mem hu
  unfold getSymbolIdx
  rw [hi, hj]
  intro hij
  change i = j at hij
  apply hne
  have h1 := vfind_getD hi
  have h2 := vfind_getD hj
  rw [← h1, ← h2, hij]

/-- Looking up a present symbol is unchanged when the dictionary is
extended on the right. -/
theorem getSymbolIdx_append {l ext : List PyStr} {u t : PyStr}
    (ht : t ∈ l) (hu : u ∈ l) :
    getSymbolIdx ⟨l ++ ext, u⟩ t = getSymbolIdx ⟨l, u⟩ t := by
  unfold getSymbolIdx
  rw [vfind_append_of_mem ext ht, vfind_append_of_mem ext hu]

theorem addSymbol_unkTok (v : VocabM) (t : PyStr) : (addSymbol v t).unkTok = v.unkTok := by
  unfold addSymbol
  split <;> rfl

theorem addSymbol_extends (v : VocabM) (t : PyStr) :
    ∃ ext, (addSymbol v t).idx2symbol = v.idx2symbol ++ ext := by
  unfold addSymbol
  split
  · exact ⟨[], by simp⟩
  · exact ⟨[t], rfl⟩

theorem mem_addSymbol_self (v : VocabM) (t : PyStr) : t ∈ (addSymbol v t).idx2symbol := by
  unfold addSymbol
  split
  · assumption
  · simp

theorem mem_addSymbol_of_mem (v : VocabM) (t u : PyStr) (h : u ∈ v.idx2symbol) :
    u ∈ (addSymbol v t).idx2symbol := by
  obtain ⟨ext, hext⟩ := addSymbol_extends v t
  rw [hext]
  exact List.mem_append_left ext h

theorem prepExtLoop_extends (nodes : List NodeM) :
    ∀ oov : VocabM, (∃ ext, (prepExtLoop oov nodes).1.idx2symbol = oov.idx2symbol ++ ext) ∧
      (prepExtLoop oov nodes).1.unkTok = oov.unkTok := by
  induction nodes with
  | nil => intro oov; exact ⟨⟨[], by simp [prepExtLoop]⟩, rfl⟩
  | cons n rest ih =>
    intro oov
    rw [prepExtLoop]
    set oov1 := if (n.type? = none ∨ n.type? = some 0) ∧
        getSymbolIdx oov n.token = getSymbolIdx oov oov.unkTok
      then addSymbol oov n.token else oov with hoov1
    have h1 : (∃ ext, oov1.idx2symbol = oov.idx2symbol ++ ext) ∧ oov1.unkTok = oov.unkTok := by
      rw [hoov1]
      split
      · exact ⟨addSymbol_extends oov n.token, addSymbol_unkTok oov n.token⟩
      · exact ⟨⟨[], by simp⟩, rfl⟩
    obtain ⟨⟨e1, he1⟩, hu1⟩ := h1
    obtain ⟨⟨e2, he2⟩, hu2⟩ := ih oov1
    exact ⟨⟨e1 ++ e2, by rw [he2, he1, List.append_assoc]⟩, by rw [hu2, hu1]⟩

/-- C7 as stated is false on two points.  With vocabulary `["u"]` whose
unknown token is `"u"` and nodes `[("u", type 0), ("t", type 1),
("t", type 0)]`: the first node's token is the unknown token itself, so it
stays at the unknown index even though its type is 0; and the matrix entry
of the second node was computed before `"t"` was added, so the stored
`token_id_oov` feature `[0, 0, 1]` is not the list of indices under the
returned dictionary (which is `[0, 1, 1]`). -/
theorem c7_counterexample :
    ((prepare_ext_vocab [⟨['u'], some 0⟩, ⟨['t'], some 1⟩, ⟨['t'], some 0⟩]
        ⟨[['u']], ['u']⟩).2 ≠
      ([⟨['u'], some 0⟩, ⟨['t'], some 1⟩, ⟨['t'], some 0⟩] : List NodeM).map
        (fun n => getSymbolIdx
          (prepare_ext_vocab [⟨['u'], some 0⟩, ⟨['t'], some 1⟩, ⟨['t'], some 0⟩]
            ⟨[['u']], ['u']⟩).1 n.token)) ∧
    ¬ (∀ n ∈ ([⟨['u'], some 0⟩, ⟨['t'], some 1⟩, ⟨['t'], some 0⟩] : List NodeM),
        (n.type? = none ∨ n.type? = some 0) →
        getSymbolIdx (prepare_ext_vocab [⟨['u'], some 0⟩, ⟨['t'], some 1⟩, ⟨['t'], some 0⟩]
            ⟨[['u']], ['u']⟩).1 n.token ≠
          getSymbolIdx (prepare_ext_vocab [⟨['u'], some 0⟩, ⟨['t'], some 1⟩, ⟨['t'], some 0⟩]
            ⟨[['u']], ['u']⟩).1
            (prepare_ext_vocab [⟨['u'], some 0⟩, ⟨['t'], some 1⟩, ⟨['t'], some 0⟩]
              ⟨[['u']], ['u']⟩).1.unkTok) := by
  constructor
  · decide
  · decide

theorem prepExtLoop_token_ne_unk (nodes : List NodeM) :
    ∀ oov : VocabM, oov.unkTok ∈ oov.idx2symbol →
      ∀ n ∈ nodes, (n.type? = none ∨ n.type? = some 0) → n.token ≠ oov.unkTok →
        getSymbolIdx (prepExtLoop oov nodes).1 n.token ≠
          getSymbolIdx (prepExtLoop oov nodes).1 (prepExtLoop oov nodes).1.unkTok := by
  induction nodes with
  | nil => intro oov _ n hn; cases hn
  | cons m rest ih =>
    intro oov hunk n hn htype hne
    rw [prepExtLoop]
    set oov1 := if (m.type? = none ∨ m.type? = some 0) ∧
        getSymbolIdx oov m.token = getSymbolIdx oov oov.unkTok
      then addSymbol oov m.token else oov with hoov1
    have hunk1 : oov1.unkTok = oov.unkTok ∧ oov1.unkTok ∈ oov1.idx2symbol := by
      rw [hoov1]
      split
      · exact ⟨addSymbol_unkTok oov m.token, by
          rw [addSymbol_unkTok oov m.token]
          exact mem_addSymbol_of_mem oov m.token oov.unkTok hunk⟩
      · exact ⟨rfl, hunk⟩
    rcases List.mem_cons.1 hn with hnm | hnr
    · subst hnm
      have hmem : n.token ∈ oov1.idx2symbol := by
        rw [hoov1]
        split
        · exact mem_addSymbol_self oov n.token
        · rename_i hcond
          by_contra hnot
          exact hcond ⟨htype, getSymbolIdx_of_not_mem hnot⟩
      obtain ⟨⟨ext, hext⟩, huf⟩ := prepExtLoop_extends rest oov1
      have hfinU : (prepExtLoop oov1 rest).1.unkTok ∈ (prepExtLoop oov1 rest).1.idx2symbol := by
        rw [huf, hext]
        exact List.mem_append_left ext hunk1.2
      have hfinT : n.token ∈ (prepExtLoop oov1 rest).1.idx2symbol := by
        rw [hext]
        exact List.mem_append_left ext hmem
      exact getSymbolIdx_ne_unk hfinT hfinU (by rw [huf, hunk1.1]; exact hne)
    · have := ih oov1 hunk1.2 n hnr htype (by rw [hunk1.1]; exact hne)
      exact this

theorem prepExtLoop_matrix_entry (nodes : List NodeM) :
    ∀ (oov : VocabM) (k : Nat), k < nodes.length →
      (prepExtLoop oov nodes).2.getD k 0 =
        getSymbolIdx (prepExtLoop oov (nodes.take (k + 1))).1 ((nodes.getD k default).token) := by
  induction nodes with
  | nil => intro oov k hk; cases hk
  | cons m rest ih =>
    intro oov k hk
    cases k with
    | zero => rfl
    | succ k =>
      have hk' : k < rest.length := by simpa using hk
      have := ih (if (m.type? = none ∨ m.type? = some 0) ∧
          getSymbolIdx oov m.token = getSymbolIdx oov oov.unkTok
        then addSymbol oov m.token else oov) k hk'
      simpa [prepExtLoop] using this

/-- C7 (amended): every node token distinct from the unknown token whose
node attribute `type` is absent or 0 is mapped by the returned `oov_dict`
to an index different from the unknown-token index; and the
`token_id_oov` feature lists, in node order, each node token's index
under the dictionary as it stands just after that node is processed
(entries computed before a later addition are not updated). -/
theorem c7_prepare_ext_vocab (nodes : List NodeM) (v : VocabM)
    (hunk : v.unkTok ∈ v.idx2symbol) :
    (∀ n ∈ nodes, (n.type? = none ∨ n.type? = some 0) → n.token ≠ v.unkTok →
      getSymbolIdx (prepare_ext_vocab nodes v).1 n.token ≠
        getSymbolIdx (prepare_ext_vocab nodes v).1 (prepare_ext_vocab nodes v).1.unkTok) ∧
    (∀ k, k < nodes.length →
      (prepare_ext_vocab nodes v).2.getD k 0 =
        getSymbolIdx (prepare_ext_vocab (nodes.take (k + 1)) v).1
          ((nodes.getD k default).token)) :=
  ⟨prepExtLoop_token_ne_unk nodes v hunk,
   prepExtLoop_matrix_entry nodes v⟩

theorem c7_prepare_ext_vocab_witness :
    getSymbolIdx (prepare_ext_vocab [⟨['u'], some 0⟩, ⟨['t'], some 1⟩, ⟨['t'], some 0⟩]
        ⟨[['u']], ['u']⟩).1 ['t'] ≠
      getSymbolIdx (prepare_ext_vocab [⟨['u'], some 0⟩, ⟨['t'], some 1⟩, ⟨['t'], some 0⟩]
          ⟨[['u']], ['u']⟩).1
        (prepare_ext_vocab [⟨['u'], some 0⟩, ⟨['t'], some 1⟩, ⟨['t'], some 0⟩]
          ⟨[['u']], ['u']⟩).1.unkTok :=
  (c7_prepare_ext_vocab [⟨['u'], some 0⟩, ⟨['t'], some 1⟩, ⟨['t'], some 0⟩]
      ⟨[['u']], ['u']⟩ (by decide)).1
    ⟨['t'], some 0⟩ (by decide) (by decide) (by decide)


theorem list_set_getD_self {α : Type _} :
    ∀ (l : List α) (i : Nat) (v d : α), i < l.length → (l.set i v).getD i d = v := by
  intro l
  induction l with
  | nil => intro i v d h; cases h
  | cons x xs ih =>
    intro i v d h
    cases i with
    | zero => rfl
    | succ i => exact ih i v d (by simpa using h)

theorem list_set_getD_ne {α : Type _} :
    ∀ (l : List α) (i j : Nat) (v d : α), i ≠ j → (l.set i v).getD j d = l.getD j d := by
  intro l
  induction l with
  | nil => intro i j v d _; cases i <;> rfl
  | cons x xs ih =>
    intro i j v d h
    cases i with
    | zero =>
      cases j with
      | zero => exact absurd rfl h
      | succ j => rfl
    | succ i =>
      cases j with
      | zero => rfl
      | succ j => exact ih i j v d (fun hij => h (by rw [hij]))

theorem list_getD_append_left {α : Type _} :
    ∀ (l ext : List α) (j : Nat) (d : α), j < l.length → (l ++ ext).getD j d = l.getD j d := by
  intro l
  induction l with
  | nil => intro ext j d h; cases h
  | cons x xs ih =>
    intro ext j d h
    cases j with
    | zero => rfl
    | succ j => exact ih ext j d (by simpa using h)

theorem list_getD_append_self {α : Type _} :
    ∀ (l : List α) (v d : α), (l ++ [v]).getD l.length d = v := by
  intro l
  induction l with
  | nil => intro v d; rfl
  | cons x xs ih => intro v d; exact ih v d


theorem prepExtLoopStore_frame (nodes : List NodeM) (oovRef : Nat) :
    ∀ (st : VStore) (q : Nat), q ≠ oovRef →
      getCell (prepExtLoopStore oovRef st nodes).1 q = getCell st q := by
  induction nodes with
  | nil => intro st q _; rfl
  | cons n rest ih =>
    intro st q hq
    rw [prepExtLoopStore]
    set cell := getCell st oovRef with hcell
    set st1 := if (n.type? = none ∨ n.type? = some 0) ∧
        getSymbolIdx cell n.token = getSymbolIdx cell cell.unkTok
      then setCell st oovRef (addSymbol cell n.token) else st with hst1
    have h1 : getCell st1 q = getCell st q := by
      rw [hst1]
      split
      · exact list_set_getD_ne st.cells oovRef q _ _ (fun h => hq h.symm)
      · rfl
    rw [ih st1 q hq, h1]

theorem prepExtLoopStore_length (nodes : List NodeM) (oovRef : Nat) :
    ∀ st : VStore, (prepExtLoopStore oovRef st nodes).1.cells.length = st.cells.length := by
  induction nodes with
  | nil => intro st; rfl
  | cons n rest ih =>
    intro st
    rw [prepExtLoopStore]
    set cell := getCell st oovRef with hcell
    set st1 := if (n.type? = none ∨ n.type? = some 0) ∧
        getSymbolIdx cell n.token = getSymbolIdx cell cell.unkTok
      then setCell st oovRef (addSymbol cell n.token) else st with hst1
    have h1 : st1.cells.length = st.cells.length := by
      rw [hst1]
      split
      · exact List.length_set st.cells oovRef _
      · rfl
    rw [ih st1, h1]

/-- On the heap, the mutated cell and matrix agree with the pure model. -/
theorem prepExtLoopStore_cell (nodes : List NodeM) (oovRef : Nat) :
    ∀ st : VStore, oovRef < st.cells.length →
      getCell (prepExtLoopStore oovRef st nodes).1 oovRef =
        (prepExtLoop (getCell st oovRef) nodes).1 ∧
      (prepExtLoopStore oovRef st nodes).2 = (prepExtLoop (getCell st oovRef) nodes).2 := by
  induction nodes with
  | nil => intro st _; exact ⟨rfl, rfl⟩
  | cons n rest ih =>
    intro st hlt
    rw [prepExtLoopStore, prepExtLoop]
    set cell := getCell st oovRef with hcell
    set st1 := if (n.type? = none ∨ n.type? = some 0) ∧
        getSymbolIdx cell n.token = getSymbolIdx cell cell.unkTok
      then setCell st oovRef (addSymbol cell n.token) else st with hst1
    set oov1 := if (n.type? = none ∨ n.type? = some 0) ∧
        getSymbolIdx cell n.token = getSymbolIdx cell cell.unkTok
      then addSymbol cell n.token else cell with hoov1
    have hcells : getCell st1 oovRef = oov1 := by
      rw [hst1, hoov1]
      split
      · exact list_set_getD_self st.cells oovRef _ _ hlt
      · rfl
    have hlen1 : oovRef < st1.cells.length := by
      rw [hst1]
      split
      · simpa [setCell, List.length_set] using hlt
      · exact hlt
    obtain ⟨ha, hb⟩ := ih st1 hlen1
    rw [hcells] at ha hb
    exact ⟨ha, by rw [hb, hcells]⟩

/-- C10: `prepare_ext_vocab` never modifies the `src_vocab` object: all
symbol additions go to the deep copy, so every pre-existing heap cell (in
particular the one holding `src_vocab`) is unchanged, and the fresh cell
together with the returned matrix equals the pure
`prepare_ext_vocab` of the source vocabulary's value. -/
theorem c10_src_vocab_unchanged (st : VStore) (srcRef : Nat) (nodes : List NodeM)
    (hsrc : srcRef < st.cells.length) :
    (∀ r, r < st.cells.length →
      getCell (prepare_ext_vocab_store st srcRef nodes).1 r = getCell st r) ∧
    getCell (prepare_ext_vocab_store st srcRef nodes).1 srcRef = getCell st srcRef ∧
    (getCell (prepare_ext_vocab_store st srcRef nodes).1
        (prepare_ext_vocab_store st srcRef nodes).2.1,
      (prepare_ext_vocab_store st srcRef nodes).2.2) =
      prepare_ext_vocab nodes (getCell st srcRef) := by
  have hframe : ∀ r, r < st.cells.length →
      getCell (prepare_ext_vocab_store st srcRef nodes).1 r = getCell st r := by
    intro r hr
    unfold prepare_ext_vocab_store
    rw [prepExtLoopStore_frame nodes st.cells.length _ r (by omega)]
    exact list_getD_append_left st.cells [getCell st srcRef] r _ hr
  refine ⟨hframe, hframe srcRef hsrc, ?_⟩
  unfold prepare_ext_vocab_store prepare_ext_vocab
  have hfresh : getCell ⟨st.cells ++ [getCell st srcRef]⟩ st.cells.length =
      getCell st srcRef := list_getD_append_self st.cells _ _
  have hlen : st.cells.length < (st.cells ++ [getCell st srcRef]).length := by
    simp
  obtain ⟨ha, hb⟩ := prepExtLoopStore_cell nodes st.cells.length
    ⟨st.cells ++ [getCell st srcRef]⟩ hlen
  rw [hfresh] at ha hb
  simp only []
  rw [ha, hb]

theorem c10_src_vocab_unchanged_witness :
    getCell (prepare_ext_vocab_store ⟨[⟨[['u']], ['u']⟩]⟩ 0
        [⟨['t'], some 0⟩]).1 0 = getCell ⟨[⟨[['u']], ['u']⟩]⟩ 0 :=
  (c10_src_vocab_unchanged ⟨[⟨[['u']], ['u']⟩]⟩ 0 [⟨['t'], some 0⟩] (by decide)).2.1


section DecoderTheorems

theorem sigmoidR_pos (x : ℝ) : 0 < sigmoidR x := by
  unfold sigmoidR
  have h : 0 < 1 + Real.exp (-x) := by positivity
  exact div_pos one_pos h

theorem sigmoidR_lt_one (x : ℝ) : sigmoidR x < 1 := by
  unfold sigmoidR
  rw [div_lt_one (by positivity)]
  have := Real.exp_pos (-x)
  linarith

theorem runLoop_outputs (M : DecoderM) (inp : ForwardInputs) :
    ∀ i, (runLoop M inp i).outputs = (List.range i).map (stepOutput M inp) := by
  intro i
  induction i with
  | zero => rfl
  | succ i ih =>
    simp only [runLoop, stepLoop]
    rw [ih, List.range_succ, List.map_append]
    rfl

theorem runLoop_encAttn (M : DecoderM) (inp : ForwardInputs)
    (hattn : M.useAttention = true) :
    ∀ i, (runLoop M inp i).encAttnWeightsAverage =
      (List.range i).map (fun k => stepScoresAvg M inp k) := by
  intro i
  induction i with
  | zero => rfl
  | succ i ih =>
    simp only [runLoop, stepLoop]
    rw [if_pos hattn, ih, List.range_succ, List.map_append]
    rfl

/-- C2: with `use_copy` enabled, the step-`i` output is the
pointer-generator mixture `(1 - p_ptr) * softmax(logits) + p_ptr *
(sum of averaged attention scores over source positions carrying `v`)`,
with `p_ptr = sigmoid(ptr([dec_emb; hidden; attn_results]))` strictly
between 0 and 1, so generation and copy probabilities form a convex
combination; and the mixture is exactly what `_run_forward_pass` emits at
position `i` of its output tensor. -/
theorem c2_pointer_generator (M : DecoderM) (inp : ForwardInputs)
    (hcopy : M.useCopy = true) (_hattn : M.useAttention = true) (i b v : Nat) :
    (stepOutput M inp i b v =
      (1 - stepProbPtr M inp i b) * softmaxR M.vocabSize (stepLogits M inp i b) v +
        stepProbPtr M inp i b *
          ∑ j ∈ (Finset.range inp.srcLen).filter (fun j => inp.srcSeq b j = v),
            stepScoresAvg M inp i b j) ∧
    stepProbPtr M inp i b = sigmoidR (M.ptr (stepPgen M inp i b)) ∧
    0 < stepProbPtr M inp i b ∧ stepProbPtr M inp i b < 1 ∧
    (1 - stepProbPtr M inp i b) + stepProbPtr M inp i b = 1 ∧
    (i < targetLen M inp → (run_forward_pass M inp).1 i = stepOutput M inp i) := by
  refine ⟨?_, rfl, sigmoidR_pos _, sigmoidR_lt_one _, by ring, ?_⟩
  · show lsOutput M inp i (runLoop M inp i) b v = _
    rw [lsOutput, if_pos hcopy]
    show scatter_add _ _ _ _ b v = _
    rw [scatter_add, Finset.mul_sum, Finset.sum_filter]
    rfl
  · intro hlt
    show (runLoop M inp (targetLen M inp)).outputs.getD i _ = _
    rw [runLoop_outputs, List.getD_eq_getElem?_getD, List.getElem?_map,
      List.getElem?_range hlt]
    rfl

theorem listSum_append (l1 l2 : List ℝ) : listSum (l1 ++ l2) = listSum l1 + listSum l2 := by
  induction l1 with
  | nil => simp [listSum]
  | cons x t ih =>
    show x + listSum (t ++ l2) = listSum (x :: t) + listSum l2
    rw [ih]
    show x + (listSum t + listSum l2) = x + listSum t + listSum l2
    ring

theorem listSum_range_map (f : Nat → ℝ) :
    ∀ n, listSum ((List.range n).map f) = ∑ k ∈ Finset.range n, f k := by
  intro n
  induction n with
  | zero => simp [listSum]
  | succ n ih =>
    rw [List.range_succ, List.map_append, listSum_append, ih, Finset.sum_range_succ]
    simp [listSum]

theorem listMax_spec : ∀ l : List ℝ, l ≠ [] →
    listMax l ∈ l ∧ ∀ x ∈ l, x ≤ listMax l := by
  intro l
  induction l with
  | nil => intro h; exact absurd rfl h
  | cons x t ih =>
    intro _
    cases t with
    | nil =>
      refine ⟨by simp [listMax], ?_⟩
      intro z hz
      rcases List.mem_cons.1 hz with rfl | hz
      · simp [listMax]
      · cases hz
    | cons y t2 =>
      obtain ⟨hmem, hub⟩ := ih (by simp)
      constructor
      · show max x (listMax (y :: t2)) ∈ x :: y :: t2
        rcases le_total x (listMax (y :: t2)) with h | h
        · rw [max_eq_right h]
          exact List.mem_cons_of_mem x hmem
        · rw [max_eq_left h]
          exact List.mem_cons_self x (y :: t2)
      · intro z hz
        rcases List.mem_cons.1 hz with rfl | hz
        · exact le_max_left _ _
        · exact le_trans (hub z hz) (le_max_right _ _)

/-- C3: with coverage enabled, the coverage vector supplied to the
attention module at step `i + 1` is the element-wise sum (strategy "sum"),
resp. the element-wise maximum (strategy "max"), of the averaged attention
score distributions of steps `0 .. i`; at step 0 no coverage vector is
supplied. -/
theorem c3_coverage (M : DecoderM) (inp : ForwardInputs)
    (hcov : M.useCoverage = true) (hattn : M.useAttention = true) :
    stepCoverageVec M inp 0 = none ∧
    (M.coverageStrategy = .sum → ∀ i,
      stepCoverageVec M inp (i + 1) =
        some (fun b n => ∑ k ∈ Finset.range (i + 1), stepScoresAvg M inp k b n)) ∧
    (M.coverageStrategy = .max → ∀ i, ∃ cv,
      stepCoverageVec M inp (i + 1) = some cv ∧
      ∀ b n, (∀ k < i + 1, stepScoresAvg M inp k b n ≤ cv b n) ∧
        ∃ k < i + 1, cv b n = stepScoresAvg M inp k b n) := by
  have hne : ∀ i, (runLoop M inp (i + 1)).encAttnWeightsAverage =
      (List.range (i + 1)).map (fun k => stepScoresAvg M inp k) :=
    fun i => runLoop_encAttn M inp hattn (i + 1)
  have hnonempty : ∀ i,
      (runLoop M inp (i + 1)).encAttnWeightsAverage ≠ [] := by
    intro i
    rw [hne i]
    simp [List.range_succ]
  refine ⟨?_, ?_, ?_⟩
  · show lsCoverageVec M (runLoop M inp 0) = none
    rw [lsCoverageVec, if_neg]
    rintro ⟨-, hlist⟩
    exact hlist rfl
  · intro hsum i
    show lsCoverageVec M (runLoop M inp (i + 1)) = _
    rw [lsCoverageVec, if_pos ⟨hcov, hnonempty i⟩]
    congr 1
    funext b n
    rw [get_coverage_vector, hsum]
    simp only [hne i, List.map_map]
    exact listSum_range_map (fun k => stepScoresAvg M inp k b n) (i + 1)
  · intro hmax i
    refine ⟨get_coverage_vector M ((runLoop M inp (i + 1)).encAttnWeightsAverage),
      ?_, ?_⟩
    · show lsCoverageVec M (runLoop M inp (i + 1)) = _
      rw [lsCoverageVec, if_pos ⟨hcov, hnonempty i⟩]
    · intro b n
      have hform : get_coverage_vector M ((runLoop M inp (i + 1)).encAttnWeightsAverage) b n
          = listMax (((List.range (i + 1)).map (fun k => stepScoresAvg M inp k b n))) := by
        rw [get_coverage_vector, hmax]
        simp only [hne i, List.map_map]
        rfl
      have hnil : ((List.range (i + 1)).map (fun k => stepScoresAvg M inp k b n)) ≠ [] := by
        simp [List.range_succ]
      obtain ⟨hmem, hub⟩ := listMax_spec _ hnil
      constructor
      · intro k hk
        rw [hform]
        exact hub _ (List.mem_map_of_mem _ (List.mem_range.2 hk))
      · rw [hform]
        obtain ⟨k, hk, hkeq⟩ := List.mem_map.1 hmem
        exact ⟨k, List.mem_range.1 hk, hkeq.symm⟩

/-- C4: when `tgt_seq` is provided, one `random.random()` draw per step
decides, for the whole batch, whether the next decoder input is the
ground-truth token `tgt_seq[:, i]` or the model's own argmax prediction;
with `teacher_forcing_rate = 1.0` the draw (always `< 1.0`) always selects
the ground-truth token. -/
theorem c4_teacher_forcing (M : DecoderM) (inp : ForwardInputs)
    (tgt : Nat → Nat → Nat) (htgt : inp.tgtSeq = some tgt) (i : Nat) :
    ((M.rand i < inp.teacherForcingRate →
        (runLoop M inp (i + 1)).decoderInput = fun b => tgt b i) ∧
      (¬ M.rand i < inp.teacherForcingRate →
        (runLoop M inp (i + 1)).decoderInput =
          fun b => argmaxR M.vocabSize (stepOutput M inp i b))) ∧
    (inp.teacherForcingRate = 1 → M.rand i < 1 →
      (runLoop M inp (i + 1)).decoderInput = fun b => tgt b i) := by
  have hstep : (runLoop M inp (i + 1)).decoderInput =
      lsNextInput M inp i (runLoop M inp i) := rfl
  have hcases :
      (M.rand i < inp.teacherForcingRate →
        (runLoop M inp (i + 1)).decoderInput = fun b => tgt b i) ∧
      (¬ M.rand i < inp.teacherForcingRate →
        (runLoop M inp (i + 1)).decoderInput =
          fun b => argmaxR M.vocabSize (stepOutput M inp i b)) := by
    constructor
    · intro h
      rw [hstep, lsNextInput, htgt]
      simp only []
      rw [if_pos h]
    · intro h
      rw [hstep, lsNextInput, htgt]
      simp only []
      rw [if_neg h]
      rfl
  refine ⟨hcases, ?_⟩
  intro hrate hlt
  exact hcases.1 (by rw [hrate]; exact hlt)


theorem c2_pointer_generator_witness : 0 < stepProbPtr demoDecoder demoInputs 0 0 :=
  (c2_pointer_generator demoDecoder demoInputs rfl rfl 0 0 0).2.2.1

theorem c3_coverage_witness : stepCoverageVec demoDecoder demoInputs 0 = none :=
  (c3_coverage demoDecoder demoInputs rfl rfl).1

theorem c4_teacher_forcing_witness :
    (runLoop demoDecoder demoInputs 1).decoderInput =
      fun b => (fun _ _ => 0 : Nat → Nat → Nat) b 0 :=
  (c4_teacher_forcing demoDecoder demoInputs (fun _ _ => 0) rfl 0).2 rfl zero_lt_one

end DecoderTheorems

/-! ## String lemmas for the `get_split_comma` bridge (C1, C6) -/

theorem splitWs_cons_nonspace :
    ∀ (z : PyStr) (d : Char), isSpaceChar d = false →
      ∃ t rest, splitWs (d :: z) = (d :: t) :: rest := by
  intro z
  induction z with
  | nil =>
    intro d hd
    exact ⟨[], [], by rw [splitWs, if_neg (by simp [hd])]⟩
  | cons c2 z2 ih =>
    intro d hd
    by_cases hc2 : isSpaceChar c2 = true
    · exact ⟨[], splitWs (c2 :: z2), by
        rw [splitWs, if_neg (by simp [hd]), if_pos hc2]⟩
    · obtain ⟨t, rest, h⟩ := ih c2 (by simpa using hc2)
      refine ⟨c2 :: t, rest, ?_⟩
      rw [splitWs, if_neg (by simp [hd]), if_neg hc2, h]
      rfl

theorem splitWs_ne_nil_of_nonspace {z : PyStr} {d : Char} (hd : isSpaceChar d = false) :
    splitWs (d :: z) ≠ [] := by
  obtain ⟨t, rest, h⟩ := splitWs_cons_nonspace z d hd
  rw [h]
  exact List.cons_ne_nil _ _

theorem splitWs_cons_space {c : Char} (hc : isSpaceChar c = true) (rest : PyStr) :
    splitWs (c :: rest) = splitWs rest := by
  rw [splitWs.eq_def]
  simp [hc]

theorem splitWs_singleton_nonspace {c : Char} (hc : isSpaceChar c = false) :
    splitWs [c] = [[c]] := by
  rw [splitWs.eq_def]
  simp [hc]

theorem splitWs_cons2_space {c c2 : Char} (hc : isSpaceChar c = false)
    (hc2 : isSpaceChar c2 = true) (rest : PyStr) :
    splitWs (c :: c2 :: rest) = [c] :: splitWs (c2 :: rest) := by
  rw [splitWs.eq_def]
  simp [hc, hc2]

theorem splitWs_cons2_nonspace {c c2 : Char} (hc : isSpaceChar c = false)
    (hc2 : isSpaceChar c2 = false) (rest : PyStr) :
    splitWs (c :: c2 :: rest) = (splitWs (c2 :: rest)).modifyHead (c :: ·) := by
  rw [splitWs.eq_def]
  simp [hc, hc2]

theorem splitWs_tokens :
    ∀ s : PyStr, ∀ t ∈ splitWs s, t ≠ [] ∧ ∀ c ∈ t, isSpaceChar c = false ∧ c ∈ s := by
  intro s
  induction s with
  | nil => intro t ht; cases ht
  | cons a rest ih =>
    intro t ht
    by_cases ha : isSpaceChar a = true
    · rw [splitWs_cons_space ha] at ht
      obtain ⟨h1, h2⟩ := ih t ht
      exact ⟨h1, fun c hc => ⟨(h2 c hc).1, List.mem_cons_of_mem a (h2 c hc).2⟩⟩
    · have ha' : isSpaceChar a = false := by simpa using ha
      cases rest with
      | nil =>
        rw [splitWs_singleton_nonspace ha'] at ht
        rcases List.mem_cons.1 ht with rfl | h
        · refine ⟨List.cons_ne_nil _ _, ?_⟩
          intro c hc
          rcases List.mem_cons.1 hc with rfl | h
          · exact ⟨ha', List.mem_cons_self _ _⟩
          · cases h
        · cases h
      | cons c2 rest2 =>
        by_cases hc2 : isSpaceChar c2 = true
        · rw [splitWs_cons2_space ha' hc2] at ht
          rcases List.mem_cons.1 ht with rfl | h
          · refine ⟨List.cons_ne_nil _ _, ?_⟩
            intro c hc
            rcases List.mem_cons.1 hc with rfl | h
            · exact ⟨ha', List.mem_cons_self _ _⟩
            · cases h
          · obtain ⟨h1, h2⟩ := ih t h
            exact ⟨h1, fun c hc => ⟨(h2 c hc).1, List.mem_cons_of_mem a (h2 c hc).2⟩⟩
        · have hc2' : isSpaceChar c2 = false := by simpa using hc2
          rw [splitWs_cons2_nonspace ha' hc2'] at ht
          obtain ⟨t0, rest0, hsplit⟩ := splitWs_cons_nonspace rest2 c2 hc2'
          rw [hsplit, List.modifyHead_cons] at ht
          rcases List.mem_cons.1 ht with rfl | h
          · refine ⟨List.cons_ne_nil _ _, ?_⟩
            intro c hc
            rcases List.mem_cons.1 hc with rfl | h
            · exact ⟨ha', List.mem_cons_self _ _⟩
            · obtain ⟨-, h2⟩ := ih (c2 :: t0) (by rw [hsplit]; exact List.mem_cons_self _ _)
              exact ⟨(h2 c h).1, List.mem_cons_of_mem a (h2 c h).2⟩
          · obtain ⟨h1, h2⟩ := ih t (by rw [hsplit]; exact List.mem_cons_of_mem _ h)
            exact ⟨h1, fun c hc => ⟨(h2 c hc).1, List.mem_cons_of_mem a (h2 c hc).2⟩⟩

theorem modifyHead_append_of_ne_nil {α : Type _} (f : List α → List α)
    (l1 l2 : List (List α)) (h : l1 ≠ []) :
    (l1 ++ l2).modifyHead f = l1.modifyHead f ++ l2 := by
  cases l1 with
  | nil => exact absurd rfl h
  | cons a t => rfl

theorem splitWs_append_space {c : Char} (hc : isSpaceChar c = true) :
    ∀ (x y : PyStr), splitWs (x ++ c :: y) = splitWs x ++ splitWs y := by
  intro x
  induction x with
  | nil =>
    intro y
    rw [List.nil_append, splitWs_cons_space hc]
    rfl
  | cons a x' ih =>
    intro y
    by_cases ha : isSpaceChar a = true
    · rw [List.cons_append, splitWs_cons_space ha, splitWs_cons_space ha, ih]
    · have ha' : isSpaceChar a = false := by simpa using ha
      cases x' with
      | nil =>
        show splitWs (a :: c :: y) = splitWs [a] ++ splitWs y
        rw [splitWs_cons2_space ha' hc, splitWs_cons_space hc,
          splitWs_singleton_nonspace ha']
        rfl
      | cons b x'' =>
        by_cases hb : isSpaceChar b = true
        · show splitWs (a :: b :: (x'' ++ c :: y)) = splitWs (a :: b :: x'') ++ splitWs y
          rw [splitWs_cons2_space ha' hb, splitWs_cons2_space ha' hb]
          rw [show b :: (x'' ++ c :: y) = (b :: x'') ++ c :: y from rfl, ih]
          rfl
        · have hb' : isSpaceChar b = false := by simpa using hb
          show splitWs (a :: b :: (x'' ++ c :: y)) = splitWs (a :: b :: x'') ++ splitWs y
          rw [splitWs_cons2_nonspace ha' hb', splitWs_cons2_nonspace ha' hb']
          rw [show b :: (x'' ++ c :: y) = (b :: x'') ++ c :: y from rfl, ih]
          exact modifyHead_append_of_ne_nil _ _ _ (splitWs_ne_nil_of_nonspace hb')

theorem splitWs_of_clean :
    ∀ t : PyStr, t ≠ [] → (∀ c ∈ t, isSpaceChar c = false) → splitWs t = [t] := by
  intro t
  induction t with
  | nil => intro h; exact absurd rfl h
  | cons a t' ih =>
    intro _ hclean
    have ha : isSpaceChar a = false := hclean a (List.mem_cons_self _ _)
    cases t' with
    | nil => exact splitWs_singleton_nonspace ha
    | cons b t'' =>
      have hb : isSpaceChar b = false := hclean b (List.mem_cons_of_mem a (List.mem_cons_self _ _))
      rw [splitWs_cons2_nonspace ha hb,
        ih (List.cons_ne_nil _ _) (fun c hc => hclean c (List.mem_cons_of_mem a hc))]
      rfl

theorem joinSpace_cons_of_ne_nil (t : PyStr) {ts : List PyStr} (h : ts ≠ []) :
    joinSpace (t :: ts) = t ++ ' ' :: joinSpace ts := by
  cases ts with
  | nil => exact absurd rfl h
  | cons a l => rfl

theorem splitWs_joinSpace :
    ∀ toks : List PyStr, (∀ t ∈ toks, t ≠ [] ∧ ∀ c ∈ t, isSpaceChar c = false) →
      splitWs (joinSpace toks) = toks := by
  intro toks
  induction toks with
  | nil => intro _; rfl
  | cons t ts ih =>
    intro h
    obtain ⟨h1, h2⟩ := h t (List.mem_cons_self _ _)
    cases ts with
    | nil => exact splitWs_of_clean t h1 h2
    | cons t2 ts2 =>
      rw [joinSpace_cons_of_ne_nil t (List.cons_ne_nil _ _),
        splitWs_append_space (by decide), splitWs_of_clean t h1 h2,
        ih (fun u hu => h u (List.mem_cons_of_mem t hu))]
      rfl

theorem dropWhile_append_char (f : Char → Bool) (q : PyStr) :
    ∀ p : PyStr, List.dropWhile f (p ++ q) =
      if (List.dropWhile f p).isEmpty then List.dropWhile f q
      else List.dropWhile f p ++ q := by
  intro p
  induction p with
  | nil => simp
  | cons c p' ih =>
    by_cases hf : f c = true
    · rw [List.cons_append, List.dropWhile_cons_of_pos hf, ih,
        List.dropWhile_cons_of_pos hf]
    · have hf' : f c = false := by simpa using hf
      rw [List.cons_append, List.dropWhile_cons_of_neg (by simp [hf']),
        List.dropWhile_cons_of_neg (by simp [hf'])]
      simp

theorem pyLStrip_cons_space {c : Char} (hc : isSpaceChar c = true) (p : PyStr) :
    pyLStrip (c :: p) = pyLStrip p := by
  unfold pyLStrip
  rw [List.dropWhile_cons_of_pos hc]

theorem pyLStrip_eq_self_of_head {p : PyStr}
    (h : p = [] ∨ isSpaceChar (p.headI) = false) : pyLStrip p = p := by
  cases p with
  | nil => rfl
  | cons c p' =>
    rcases h with h | h
    · cases h
    · unfold pyLStrip
      rw [List.dropWhile_cons_of_neg (by simp_all)]

theorem pyRStrip_eq_self_of_last {p : PyStr}
    (h : p = [] ∨ isSpaceChar (p.reverse.headI) = false) : pyRStrip p = p := by
  unfold pyRStrip
  cases hrev : p.reverse with
  | nil =>
    have hp : p = [] := List.reverse_eq_nil_iff.1 hrev
    rw [hp]
    rfl
  | cons c q =>
    rcases h with h | h
    · subst h; simp at hrev
    · rw [hrev] at h
      rw [List.dropWhile_cons_of_neg (by simp_all), ← hrev, List.reverse_reverse]

theorem pyStrip_cons_space {c : Char} (hc : isSpaceChar c = true) (p : PyStr) :
    pyStrip (c :: p) = pyStrip p := by
  unfold pyStrip
  rw [pyLStrip_cons_space hc]

theorem pyRStrip_append_space {c : Char} (hc : isSpaceChar c = true) (p : PyStr) :
    pyRStrip (p ++ [c]) = pyRStrip p := by
  unfold pyRStrip
  rw [List.reverse_append, List.reverse_singleton, List.singleton_append,
    List.dropWhile_cons_of_pos hc]

theorem pyStrip_append_space {c : Char} (hc : isSpaceChar c = true) (p : PyStr) :
    pyStrip (p ++ [c]) = pyStrip p := by
  unfold pyStrip pyLStrip
  rw [dropWhile_append_char]
  by_cases hp : (List.dropWhile isSpaceChar p).isEmpty
  · rw [if_pos hp]
    have h1 : List.dropWhile isSpaceChar [c] = [] := by
      rw [show [c] = c :: ([] : PyStr) from rfl, List.dropWhile_cons_of_pos hc]
      rfl
    rw [h1]
    have h2 : List.dropWhile isSpaceChar p = [] := by
      simpa [List.isEmpty_iff] using hp
    rw [h2]
  · rw [if_neg hp]
    exact pyRStrip_append_space hc _

theorem pyStrip_of_clean {t : PyStr} (h : ∀ c ∈ t, isSpaceChar c = false) :
    pyStrip t = t := by
  unfold pyStrip
  rw [pyLStrip_eq_self_of_head (by
    cases t with
    | nil => exact Or.inl rfl
    | cons c p => exact Or.inr (h c (List.mem_cons_self _ _)))]
  apply pyRStrip_eq_self_of_last
  cases hrev : t.reverse with
  | nil => exact Or.inl (by simpa using congrArg List.reverse hrev)
  | cons c q =>
    right
    have hc : c ∈ t := by
      have hmem : c ∈ t.reverse := by rw [hrev]; exact List.mem_cons_self _ _
      simpa using hmem
    simpa using h c hc

theorem map_pyStrip_splitWs (s : PyStr) :
    (splitWs s).map pyStrip = splitWs s := by
  have h : ∀ t ∈ splitWs s, pyStrip t = t := by
    intro t ht
    exact pyStrip_of_clean (fun c hc => ((splitWs_tokens s t ht).2 c hc).1)
  calc
    (splitWs s).map pyStrip = (splitWs s).map id := List.map_congr_left h
    _ = splitWs s := List.map_id _

theorem replaceCommas_append (x y : PyStr) :
    replaceCommas (x ++ y) = replaceCommas x ++ replaceCommas y := by
  induction x with
  | nil => rfl
  | cons c x' ih =>
    rw [List.cons_append, replaceCommas, ih, replaceCommas, List.append_assoc]

theorem mem_replaceCommas {c : Char} :
    ∀ s : PyStr, c ∈ replaceCommas s → c ∈ s ∨ c = ' ' ∨ c = ',' := by
  intro s
  induction s with
  | nil => intro h; cases h
  | cons a s' ih =>
    intro h
    rw [replaceCommas] at h
    rcases List.mem_append.1 h with h1 | h1
    · by_cases ha : a = ','
      · rw [if_pos ha] at h1
        rcases List.mem_cons.1 h1 with rfl | h1
        · exact Or.inr (Or.inl rfl)
        rcases List.mem_cons.1 h1 with rfl | h1
        · exact Or.inr (Or.inr rfl)
        rcases List.mem_cons.1 h1 with rfl | h1
        · exact Or.inr (Or.inl rfl)
        · cases h1
      · rw [if_neg ha] at h1
        rcases List.mem_singleton.1 h1 with rfl
        exact Or.inl (List.mem_cons_self _ _)
    · rcases ih h1 with h2 | h2
      · exact Or.inl (List.mem_cons_of_mem a h2)
      · exact Or.inr h2

theorem replaceCommas_of_no_comma :
    ∀ t : PyStr, (∀ c ∈ t, c ≠ ',') → replaceCommas t = t := by
  intro t
  induction t with
  | nil => intro _; rfl
  | cons c t' ih =>
    intro h
    rw [replaceCommas, if_neg (h c (List.mem_cons_self _ _)),
      ih (fun d hd => h d (List.mem_cons_of_mem c hd))]
    rfl

theorem splitDollar_ne_nil : ∀ v : PyStr, splitDollar v ≠ [] := by
  intro v
  induction v with
  | nil => exact List.cons_ne_nil _ _
  | cons c rest ih =>
    rw [splitDollar]
    by_cases hc : c = '$'
    · rw [if_pos hc]
      exact List.cons_ne_nil _ _
    · rw [if_neg hc]
      cases h : splitDollar rest with
      | nil => exact absurd h ih
      | cons a t => simp [List.modifyHead_cons]

theorem splitDollar_append_nodollar :
    ∀ (u v : PyStr), (∀ c ∈ u, c ≠ '$') →
      splitDollar (u ++ v) = (splitDollar v).modifyHead (u ++ ·) := by
  intro u
  induction u with
  | nil =>
    intro v _
    cases h : splitDollar v with
    | nil => exact absurd h (splitDollar_ne_nil v)
    | cons a t =>
      rw [show ([] : PyStr) ++ v = v from rfl, h]
      simp
  | cons c u' ih =>
    intro v hu
    rw [List.cons_append, splitDollar, if_neg (hu c (List.mem_cons_self _ _)),
      ih v (fun d hd => hu d (List.mem_cons_of_mem c hd))]
    cases h : splitDollar v with
    | nil => exact absurd h (splitDollar_ne_nil v)
    | cons a t => simp [List.modifyHead_cons]

theorem splitDollar_of_nodollar (v : PyStr) (hv : ∀ c ∈ v, c ≠ '$') :
    splitDollar v = [v] := by
  have h := splitDollar_append_nodollar v [] hv
  rw [List.append_nil] at h
  rw [h]
  show List.modifyHead _ [[]] = [v]
  simp

theorem splitDollar_cons_dollar (v : PyStr) : splitDollar ('$' :: v) = [] :: splitDollar v := by
  rw [splitDollar, if_pos rfl]

theorem mem_joinSpace {c : Char} :
    ∀ toks : List PyStr, c ∈ joinSpace toks → (∃ t ∈ toks, c ∈ t) ∨ c = ' ' := by
  intro toks
  induction toks with
  | nil => intro h; cases h
  | cons t ts ih =>
    intro h
    cases ts with
    | nil => exact Or.inl ⟨t, List.mem_cons_self _ _, h⟩
    | cons t2 ts2 =>
      rw [joinSpace_cons_of_ne_nil t (List.cons_ne_nil _ _)] at h
      rcases List.mem_append.1 h with h1 | h1
      · exact Or.inl ⟨t, List.mem_cons_self _ _, h1⟩
      · rcases List.mem_cons.1 h1 with rfl | h1
        · exact Or.inr rfl
        · rcases ih h1 with ⟨u, hu, hc⟩ | h2
          · exact Or.inl ⟨u, List.mem_cons_of_mem t hu, hc⟩
          · exact Or.inr h2

theorem joinComma_cons_of_ne_nil (t : PyStr) {ts : List PyStr} (h : ts ≠ []) :
    joinComma (t :: ts) = t ++ ',' :: joinComma ts := by
  cases ts with
  | nil => exact absurd rfl h
  | cons a l => rfl

theorem mem_joinComma {c : Char} :
    ∀ L : List PyStr, c ∈ joinComma L → (∃ x ∈ L, c ∈ x) ∨ c = ',' := by
  intro L
  induction L with
  | nil => intro h; cases h
  | cons x L' ih =>
    intro h
    cases L' with
    | nil => exact Or.inl ⟨x, List.mem_cons_self _ _, h⟩
    | cons x2 L2 =>
      rw [joinComma_cons_of_ne_nil x (List.cons_ne_nil _ _)] at h
      rcases List.mem_append.1 h with h1 | h1
      · exact Or.inl ⟨x, List.mem_cons_self _ _, h1⟩
      · rcases List.mem_cons.1 h1 with rfl | h1
        · exact Or.inr rfl
        · rcases ih h1 with ⟨u, hu, hc⟩ | h2
          · exact Or.inl ⟨u, List.mem_cons_of_mem x hu, hc⟩
          · exact Or.inr h2

theorem joinSpace_ne_nil {toks : List PyStr} (h : toks ≠ [])
    (h2 : ∀ t ∈ toks, t ≠ []) : joinSpace toks ≠ [] := by
  cases toks with
  | nil => exact absurd rfl h
  | cons t ts =>
    cases ts with
    | nil => exact h2 t (List.mem_cons_self _ _)
    | cons t2 ts2 =>
      rw [joinSpace_cons_of_ne_nil t (List.cons_ne_nil _ _)]
      intro hc
      rcases List.append_eq_nil.1 hc with ⟨h3, -⟩
      exact h2 t (List.mem_cons_self _ _) h3


theorem splitAtNone_ne_nil : ∀ L : List (Option PyStr), splitAtNone L ≠ [] := by
  intro L
  induction L with
  | nil => exact List.cons_ne_nil _ _
  | cons o rest ih =>
    cases o with
    | none => exact List.cons_ne_nil _ _
    | some t =>
      rw [splitAtNone]
      cases h : splitAtNone rest with
      | nil => exact absurd h ih
      | cons r rs => exact List.cons_ne_nil _ _

theorem splitToksAtDollar_eq_splitAtNone :
    ∀ l : List PyStr, splitToksAtDollar l =
      splitAtNone (l.map (fun t => if t = tDollar then none else some t)) := by
  intro l
  induction l with
  | nil => rfl
  | cons t rest ih =>
    by_cases ht : t = tDollar
    · rw [splitToksAtDollar, if_pos ht, List.map_cons, if_pos ht, splitAtNone, ih]
    · rw [splitToksAtDollar, if_neg ht, List.map_cons, if_neg ht, splitAtNone, ih]

theorem splitAtNone_append :
    ∀ (A B : List (Option PyStr)),
      splitAtNone (A ++ none :: B) = splitAtNone A ++ splitAtNone B := by
  intro A
  induction A with
  | nil => intro B; rfl
  | cons o A' ih =>
    intro B
    cases o with
    | none =>
      rw [List.cons_append, splitAtNone, ih, splitAtNone]
      rfl
    | some t =>
      rw [List.cons_append, splitAtNone, ih, splitAtNone]
      cases h : splitAtNone A' with
      | nil => exact absurd h (splitAtNone_ne_nil A')
      | cons r rs => rfl

theorem splitToksAtDollar_append_nodollar :
    ∀ (pre rest : List PyStr), tDollar ∉ pre →
      splitToksAtDollar (pre ++ rest) =
        (splitToksAtDollar rest).modifyHead (pre ++ ·) := by
  intro pre
  induction pre with
  | nil =>
    intro rest _
    cases h : splitToksAtDollar rest with
    | nil =>
      rw [List.nil_append, h]
      rfl
    | cons r rs =>
      rw [List.nil_append, h]
      simp
  | cons t pre' ih =>
    intro rest hpre
    have ht : t ≠ tDollar := fun h => hpre (h ▸ List.mem_cons_self _ _)
    rw [List.cons_append, splitToksAtDollar, if_neg ht,
      ih rest (fun h => hpre (List.mem_cons_of_mem t h))]
    cases h : splitToksAtDollar rest with
    | nil => exact absurd h (by rw [splitToksAtDollar_eq_splitAtNone]; exact splitAtNone_ne_nil _)
    | cons r rs => simp

theorem splitToksAtDollar_cons_dollar (rest : List PyStr) :
    splitToksAtDollar (tDollar :: rest) = [] :: splitToksAtDollar rest := by
  rw [splitToksAtDollar, if_pos rfl]

theorem splitToksAtDollar_no_dollar (toks : List PyStr) (h : tDollar ∉ toks) :
    splitToksAtDollar toks = [toks] := by
  have h1 := splitToksAtDollar_append_nodollar toks [] h
  rw [List.append_nil] at h1
  rw [h1]
  show List.modifyHead _ [[]] = [toks]
  simp

theorem interComma_cons_of_ne_nil (r : List PyStr) {rs : List (List PyStr)} (h : rs ≠ []) :
    interComma (r :: rs) = r ++ tComma :: interComma rs := by
  cases rs with
  | nil => exact absurd rfl h
  | cons a l => rfl

theorem interComma_splitAtNone :
    ∀ L : List (Option PyStr),
      interComma (splitAtNone L) = L.map (fun o => o.getD tComma) := by
  intro L
  induction L with
  | nil => rfl
  | cons o rest ih =>
    cases o with
    | none =>
      rw [splitAtNone, interComma_cons_of_ne_nil [] (splitAtNone_ne_nil rest), ih]
      rfl
    | some t =>
      rw [splitAtNone]
      cases h : splitAtNone rest with
      | nil => exact absurd h (splitAtNone_ne_nil rest)
      | cons r rs =>
        rw [h] at ih
        cases rs with
        | nil =>
          show interComma [t :: r] = _
          show t :: r = _
          rw [List.map_cons]
          rw [show interComma [r] = r from rfl] at ih
          rw [ih]
          rfl
        | cons r2 rs2 =>
          rw [interComma_cons_of_ne_nil (t :: r) (List.cons_ne_nil _ _), List.map_cons, ← ih,
            interComma_cons_of_ne_nil r (List.cons_ne_nil _ _)]
          rfl

theorem mem_interComma {t : PyStr} :
    ∀ (R : List (List PyStr)) (run : List PyStr), run ∈ R → t ∈ run →
      t ∈ interComma R := by
  intro R
  induction R with
  | nil => intro run h; cases h
  | cons r rs ih =>
    intro run hrun ht
    cases rs with
    | nil =>
      rcases List.mem_cons.1 hrun with rfl | h
      · exact ht
      · cases h
    | cons r2 rs2 =>
      rw [interComma_cons_of_ne_nil r (List.cons_ne_nil _ _)]
      rcases List.mem_cons.1 hrun with rfl | h
      · exact List.mem_append_left _ ht
      · exact List.mem_append_right _ (List.mem_cons_of_mem _ (ih run h ht))

theorem lgetD_append_right {α : Type _} :
    ∀ (pre z : List α) (j : Nat) (d : α), (pre ++ z).getD (pre.length + j) d = z.getD j d := by
  intro pre
  induction pre with
  | nil => intro z j d; simp
  | cons a pre' ih =>
    intro z j d
    rw [List.cons_append,
      show (a :: pre').length + j = (pre'.length + j) + 1 from by simp; omega,
      List.getD_cons_succ, ih]

theorem lgetD_append_lt {α : Type _} :
    ∀ (pre z : List α) (j : Nat) (d : α), j < pre.length →
      (pre ++ z).getD j d = pre.getD j d := by
  intro pre
  induction pre with
  | nil => intro z j d h; cases h
  | cons a pre' ih =>
    intro z j d h
    cases j with
    | zero => rfl
    | succ j =>
      rw [List.cons_append, List.getD_cons_succ, List.getD_cons_succ,
        ih z j d (by simpa using h)]

theorem ltake_append_right {α : Type _} :
    ∀ (pre z : List α) (j : Nat), (pre ++ z).take (pre.length + j) = pre ++ z.take j := by
  intro pre
  induction pre with
  | nil => intro z j; simp
  | cons a pre' ih =>
    intro z j
    rw [List.cons_append,
      show (a :: pre').length + j = (pre'.length + j) + 1 from by simp; omega,
      List.take_succ_cons, ih, List.cons_append]

theorem ldrop_append_right {α : Type _} :
    ∀ (pre z : List α) (j : Nat), (pre ++ z).drop (pre.length + j) = z.drop j := by
  intro pre
  induction pre with
  | nil => intro z j; simp
  | cons a pre' ih =>
    intro z j
    rw [List.cons_append,
      show (a :: pre').length + j = (pre'.length + j) + 1 from by simp; omega,
      List.drop_succ_cons, ih]

theorem ltake_append_le {α : Type _} :
    ∀ (pre z : List α) (j : Nat), j ≤ pre.length → (pre ++ z).take j = pre.take j := by
  intro pre
  induction pre with
  | nil =>
    intro z j h
    have hj : j = 0 := Nat.le_zero.1 (by simpa using h)
    subst hj
    rfl
  | cons a pre' ih =>
    intro z j h
    cases j with
    | zero => rfl
    | succ j =>
      rw [List.cons_append, List.take_succ_cons, List.take_succ_cons,
        ih z j (by simpa using h)]

theorem ldrop_append_lt {α : Type _} :
    ∀ (pre z : List α) (j : Nat), j < pre.length →
      (pre ++ z).drop j = pre.drop j ++ z := by
  intro pre
  induction pre with
  | nil => intro z j h; cases h
  | cons a pre' ih =>
    intro z j h
    cases j with
    | zero => rfl
    | succ j =>
      rw [List.cons_append, List.drop_succ_cons, List.drop_succ_cons,
        ih z j (by simpa using h)]

theorem list_range_map_getD {α : Type _} :
    ∀ (l : List α) (d : α), (List.range l.length).map (fun i => l.getD i d) = l := by
  intro l
  induction l with
  | nil => intro d; rfl
  | cons x t ih =>
    intro d
    rw [List.length_cons, List.range_succ_eq_map, List.map_cons, List.map_map]
    rw [show ((fun i => (x :: t).getD i d) ∘ Nat.succ) = (fun i => t.getD i d) from rfl]
    rw [ih]
    rfl

/-- The imperative marking computes exactly the spec's top-level-comma
marks, position by position. -/
theorem markFrom_eq :
    ∀ (rest pre : List PyStr),
      markFrom (pre.count tLParen) (pre.count tRParen) rest =
        (List.range rest.length).map (fun j =>
          if isTopLevelComma (pre ++ rest) (pre.length + j) then tDollar
          else rest.getD j []) := by
  intro rest
  induction rest with
  | nil => intro pre; rfl
  | cons t rest' ih =>
    intro pre
    have e1 : (pre ++ t :: rest').getD (pre.length + 0) [] = t := by
      rw [lgetD_append_right]
      rfl
    have e2 : (pre ++ t :: rest').take (pre.length + 0) = pre := by
      rw [ltake_append_right]
      simp
    have e3 : (pre ++ t :: rest').drop (pre.length + 0 + 1) = rest' := by
      rw [show pre.length + 0 + 1 = pre.length + 1 from by omega, ldrop_append_right]
      rfl
    have hiff : isTopLevelComma (pre ++ t :: rest') (pre.length + 0) ↔
        (t = tComma ∧ pre.count tLParen = pre.count tRParen ∧
          rest'.count tLParen = rest'.count tRParen) := by
      unfold isTopLevelComma
      rw [e1, e2, e3]
    have hcnt : ∀ u : PyStr, (pre ++ [t]).count u = pre.count u + List.count u [t] := by
      intro u
      rw [List.count_append]
    have happ : (pre ++ [t]) ++ rest' = pre ++ t :: rest' := by simp
    have hlen : ∀ j : Nat, (pre ++ [t]).length + j = pre.length + (j + 1) := by
      intro j
      simp
      omega
    have htail : (List.range rest'.length).map
        ((fun j => if isTopLevelComma (pre ++ t :: rest') (pre.length + j) then tDollar
          else (t :: rest').getD j []) ∘ Nat.succ)
        = (List.range rest'.length).map (fun j =>
            if isTopLevelComma ((pre ++ [t]) ++ rest') ((pre ++ [t]).length + j) then tDollar
            else rest'.getD j []) := by
      apply List.map_congr_left
      intro j _
      show (if isTopLevelComma (pre ++ t :: rest') (pre.length + (j + 1)) then tDollar
          else (t :: rest').getD (j + 1) []) = _
      rw [happ, hlen j, List.getD_cons_succ]
    rw [List.length_cons, List.range_succ_eq_map, List.map_cons, List.map_map, htail,
      ← ih (pre ++ [t])]
    by_cases hcond : t = tComma ∧ pre.count tLParen = pre.count tRParen ∧
        rest'.count tLParen = rest'.count tRParen
    · rw [markFrom, if_pos hcond]
      congr 1
      · rw [if_pos (hiff.2 hcond)]
      · obtain ⟨ht, -, -⟩ := hcond
        subst ht
        rw [hcnt, hcnt,
          show List.count tLParen [tComma] = 0 from by decide,
          show List.count tRParen [tComma] = 0 from by decide]
        simp
    · rw [markFrom, if_neg hcond]
      congr 1
      · rw [if_neg (fun h => hcond (hiff.1 h))]
        rfl
      · rw [hcnt, hcnt]

theorem markFrom_zero (toks : List PyStr) :
    markFrom 0 0 toks = (List.range toks.length).map
      (fun j => if isTopLevelComma toks j then tDollar else toks.getD j []) := by
  have h := markFrom_eq toks []
  simpa using h

theorem splitToks_markFrom_eq_specRuns (toks : List PyStr)
    (hnd : ∀ t ∈ toks, t ≠ tDollar) :
    splitToksAtDollar (markFrom 0 0 toks) = specRuns toks := by
  rw [markFrom_zero, splitToksAtDollar_eq_splitAtNone, List.map_map]
  unfold specRuns markSpecOpt
  congr 1
  apply List.map_congr_left
  intro j hj
  have hjlt : j < toks.length := List.mem_range.1 hj
  show (fun t => if t = tDollar then none else some t)
      (if isTopLevelComma toks j then tDollar else toks.getD j []) = _
  by_cases htop : isTopLevelComma toks j
  · rw [if_pos htop, if_pos htop]
    simp
  · rw [if_neg htop, if_neg htop]
    have hmem : toks.getD j [] ∈ toks := by
      rw [List.getD_eq_getElem toks [] hjlt]
      exact List.getElem_mem hjlt
    show (if toks.getD j [] = tDollar then none else some (toks.getD j []))
      = some (toks.getD j [])
    rw [if_neg (hnd _ hmem)]

theorem exists_first_dollar : ∀ toks : List PyStr, tDollar ∈ toks →
    ∃ pre post, toks = pre ++ tDollar :: post ∧ tDollar ∉ pre := by
  intro toks
  induction toks with
  | nil => intro h; cases h
  | cons t rest ih =>
    intro h
    by_cases ht : t = tDollar
    · exact ⟨[], rest, by rw [ht]; rfl, List.not_mem_nil _⟩
    · have hmem : tDollar ∈ rest := by
        rcases List.mem_cons.1 h with h1 | h1
        · exact absurd h1.symm ht
        · exact h1
      obtain ⟨pre, post, heq, hpre⟩ := ih hmem
      refine ⟨t :: pre, post, by rw [List.cons_append, ← heq], ?_⟩
      intro hc
      rcases List.mem_cons.1 hc with h2 | h2
      · exact ht h2.symm
      · exact hpre h2

theorem map_pyStrip_modifyHead_space {c : Char} (hc : isSpaceChar c = true)
    (L : List PyStr) (hL : L ≠ []) :
    (L.modifyHead (c :: ·)).map pyStrip = L.map pyStrip := by
  cases L with
  | nil => exact absurd rfl hL
  | cons a t =>
    rw [List.modifyHead_cons, List.map_cons, List.map_cons, pyStrip_cons_space hc]

theorem joinSpace_append_of_ne_nil :
    ∀ (pre z : List PyStr), pre ≠ [] → z ≠ [] →
      joinSpace (pre ++ z) = joinSpace pre ++ ' ' :: joinSpace z := by
  intro pre
  induction pre with
  | nil => intro z h; exact absurd rfl h
  | cons t pre' ih =>
    intro z _ hz
    cases pre' with
    | nil =>
      rw [show ([t] : List PyStr) ++ z = t :: z from rfl, joinSpace_cons_of_ne_nil t hz]
      rfl
    | cons t2 pre'' =>
      rw [List.cons_append, joinSpace_cons_of_ne_nil t (by simp),
        ih z (List.cons_ne_nil _ _) hz,
        joinSpace_cons_of_ne_nil t (List.cons_ne_nil _ _)]
      simp [List.append_assoc]

theorem sdj : ∀ (n : Nat) (toks : List PyStr), toks.length ≤ n →
    (∀ t ∈ toks, t = tDollar ∨ (t ≠ [] ∧ (∀ c ∈ t, isSpaceChar c = false) ∧ '$' ∉ t)) →
    (splitDollar (joinSpace toks)).map pyStrip =
      (splitToksAtDollar toks).map (fun run => pyStrip (joinSpace run)) := by
  intro n
  induction n with
  | zero =>
    intro toks hlen _
    have : toks = [] := List.length_eq_zero.1 (Nat.le_zero.1 hlen)
    subst this
    rfl
  | succ n ih =>
    intro toks hlen hcond
    by_cases hd : tDollar ∈ toks
    · obtain ⟨pre, post, heq, hpre⟩ := exists_first_dollar toks hd
      subst heq
      have hpretoks : ∀ t ∈ pre, t ≠ [] ∧ (∀ c ∈ t, isSpaceChar c = false) ∧ '$' ∉ t :=
        fun t ht => (hcond t (List.mem_append_left _ ht)).resolve_left
          (fun h => hpre (h ▸ ht))
      have hpostcond : ∀ t ∈ post, t = tDollar ∨
          (t ≠ [] ∧ (∀ c ∈ t, isSpaceChar c = false) ∧ '$' ∉ t) :=
        fun t ht => hcond t (List.mem_append_right _ (List.mem_cons_of_mem _ ht))
      have hpostlen : post.length ≤ n := by
        have := hlen
        simp only [List.length_append, List.length_cons] at this
        omega
      have ihpost := ih post hpostlen hpostcond
      have hprednod : ∀ c ∈ joinSpace pre, c ≠ '$' := by
        intro c hc hceq
        rcases mem_joinSpace pre hc with ⟨t, ht, hct⟩ | hsp
        · exact (hpretoks t ht).2.2 (hceq ▸ hct)
        · rw [hsp] at hceq
          cases hceq
      by_cases hprene : pre = []
      · subst hprene
        rw [List.nil_append, splitToksAtDollar_cons_dollar, List.map_cons]
        cases post with
        | nil => rfl
        | cons p2 post' =>
          rw [joinSpace_cons_of_ne_nil tDollar (List.cons_ne_nil _ _),
            show tDollar ++ ' ' :: joinSpace (p2 :: post') =
              '$' :: ' ' :: joinSpace (p2 :: post') from rfl,
            splitDollar_cons_dollar, List.map_cons,
            show splitDollar (' ' :: joinSpace (p2 :: post')) =
              (splitDollar (joinSpace (p2 :: post'))).modifyHead (' ' :: ·) from by
                rw [splitDollar, if_neg (by decide)],
            map_pyStrip_modifyHead_space (by decide) _ (splitDollar_ne_nil _), ihpost]
          rfl
      · have hjoin : joinSpace (pre ++ tDollar :: post) =
            (joinSpace pre ++ [' ']) ++ '$' ::
              (if post = [] then [] else ' ' :: joinSpace post) := by
          rw [joinSpace_append_of_ne_nil pre (tDollar :: post) hprene (List.cons_ne_nil _ _)]
          cases post with
          | nil =>
            rw [if_pos rfl]
            show joinSpace pre ++ ' ' :: joinSpace [tDollar] =
              (joinSpace pre ++ [' ']) ++ '$' :: []
            rw [show joinSpace [tDollar] = ['$'] from rfl]
            simp
          | cons p2 post' =>
            rw [joinSpace_cons_of_ne_nil tDollar (List.cons_ne_nil _ _),
              if_neg (by simp)]
            simp [tDollar]
        have hnodu : ∀ c ∈ joinSpace pre ++ [' '], c ≠ '$' := by
          intro c hc
          rcases List.mem_append.1 hc with h1 | h1
          · exact hprednod c h1
          · rw [List.mem_singleton.1 h1]
            decide
        rw [hjoin, splitDollar_append_nodollar _ _ hnodu, splitDollar_cons_dollar,
          List.modifyHead_cons, List.append_nil, List.map_cons,
          pyStrip_append_space (by decide),
          splitToksAtDollar_append_nodollar pre (tDollar :: post) hpre,
          splitToksAtDollar_cons_dollar, List.modifyHead_cons, List.append_nil,
          List.map_cons]
        congr 1
        cases post with
        | nil =>
          rw [if_pos rfl]
          rfl
        | cons p2 post' =>
          rw [if_neg (by simp),
            show splitDollar (' ' :: joinSpace (p2 :: post')) =
              (splitDollar (joinSpace (p2 :: post'))).modifyHead (' ' :: ·) from by
                rw [splitDollar, if_neg (by decide)],
            map_pyStrip_modifyHead_space (by decide) _ (splitDollar_ne_nil _), ihpost]
    · have hall : ∀ t ∈ toks, t ≠ [] ∧ (∀ c ∈ t, isSpaceChar c = false) ∧ '$' ∉ t :=
        fun t ht => (hcond t ht).resolve_left (fun h => hd (h ▸ ht))
      have hnod : ∀ c ∈ joinSpace toks, c ≠ '$' := by
        intro c hc hceq
        rcases mem_joinSpace toks hc with ⟨t, ht, hct⟩ | hsp
        · exact (hall t ht).2.2 (hceq ▸ hct)
        · rw [hsp] at hceq
          cases hceq
      rw [splitDollar_of_nodollar _ hnod, splitToksAtDollar_no_dollar toks hd]
      rfl

/-- For `"$"`-free input, `get_split_comma` returns exactly the set of
whitespace-trimmed top-level comma segments. -/
theorem get_split_comma_spec (s : PyStr) (hd : '$' ∉ s) :
    get_split_comma s = .ok (specSegSet s) := by
  have hchar : ∀ t ∈ tokenize s, '$' ∉ t := by
    intro t ht hc
    have hmem := ((splitWs_tokens (replaceCommas s) t ht).2 '$' hc).2
    rcases mem_replaceCommas s hmem with h1 | h1 | h1
    · exact hd h1
    · exact absurd h1 (by decide)
    · exact absurd h1 (by decide)
  have hclean : ∀ t ∈ tokenize s, t ≠ [] ∧ ∀ c ∈ t, isSpaceChar c = false := by
    intro t ht
    exact ⟨(splitWs_tokens _ t ht).1, fun c hc => ((splitWs_tokens _ t ht).2 c hc).1⟩
  have hnd : ∀ t ∈ tokenize s, t ≠ tDollar := by
    intro t ht heq
    exact hchar t ht (by rw [heq]; exact List.mem_cons_self _ _)
  have hmarked : ∀ u ∈ markFrom 0 0 (tokenize s),
      u = tDollar ∨ (u ≠ [] ∧ (∀ c ∈ u, isSpaceChar c = false) ∧ '$' ∉ u) := by
    intro u hu
    rw [markFrom_zero] at hu
    obtain ⟨j, hj, hju⟩ := List.mem_map.1 hu
    have hjlt : j < (tokenize s).length := List.mem_range.1 hj
    by_cases htop : isTopLevelComma (tokenize s) j
    · left
      rw [← hju, if_pos htop]
    · right
      have hmem : (tokenize s).getD j [] ∈ tokenize s := by
        rw [List.getD_eq_getElem _ [] hjlt]
        exact List.getElem_mem hjlt
      rw [← hju, if_neg htop]
      exact ⟨(hclean _ hmem).1, (hclean _ hmem).2, hchar _ hmem⟩
  rw [get_split_comma_eq]
  congr 1
  rw [show (splitWs (replaceCommas s)).map pyStrip = tokenize s from map_pyStrip_splitWs _]
  rw [sdj (markFrom 0 0 (tokenize s)).length _ (le_refl _) hmarked,
    splitToks_markFrom_eq_specRuns _ hnd]
  rfl

/-- C1 as stated is false: symbols may contain `"$"`, at which
`get_split_comma` also splits.  With symbols `0 ↦ "a $ b"`, `1 ↦ "b $ a"`,
`is_all_same [0] [1]` returns `True` although the lists differ and the
top-level-comma segment sets (`{"a $ b"}` vs `{"b $ a"}`) differ. -/
theorem c1_counterexample :
    is_all_same [0] [1]
        (fun n => if n = 0 then ['a', ' ', '$', ' ', 'b'] else ['b', ' ', '$', ' ', 'a'])
      = .ok true ∧
    ¬ (([0] : List Nat) = [1] ∨
      specSegSet (convert_to_string [0]
          (fun n => if n = 0 then ['a', ' ', '$', ' ', 'b'] else ['b', ' ', '$', ' ', 'a'])) =
        specSegSet (convert_to_string [1]
          (fun n => if n = 0 then ['a', ' ', '$', ' ', 'b'] else ['b', ' ', '$', ' ', 'a']))) := by
  constructor
  · decide
  · decide

/-- C1 (amended): when no symbol of the vocabulary contains the character
`"$"`, `is_all_same(c1, c2, fm)` returns `True` exactly when the index
lists are equal or the space-joined symbol strings have the same set of
whitespace-trimmed top-level comma segments. -/
theorem c1_is_all_same (c1 c2 : List Nat) (fm : Nat → PyStr)
    (hfm : ∀ n, '$' ∉ fm n) :
    (is_all_same c1 c2 fm = .ok true ↔
      (c1 = c2 ∨
        specSegSet (convert_to_string c1 fm) = specSegSet (convert_to_string c2 fm))) := by
  have hds : ∀ c : List Nat, '$' ∉ convert_to_string c fm := by
    intro c hc
    rcases mem_joinSpace _ hc with ⟨t, ht, hct⟩ | hsp
    · obtain ⟨n, -, rfl⟩ := List.mem_map.1 ht
      exact hfm n hct
    · exact absurd hsp (by decide)
  unfold is_all_same
  by_cases heq : c1 = c2
  · subst heq
    rw [if_pos ⟨rfl, by rw [if_pos rfl]; simp⟩]
    simp
  · have h1 : ¬(c1.length = c2.length ∧
        (if c1.length = c2.length then decide (c1 = c2) else true) = true) := by
      rintro ⟨hlen, hb⟩
      rw [if_pos hlen] at hb
      exact heq (of_decide_eq_true hb)
    have h2 : c1.length ≠ c2.length ∨
        (if c1.length = c2.length then decide (c1 = c2) else true) = false := by
      by_cases hlen : c1.length = c2.length
      · right
        rw [if_pos hlen]
        simp [heq]
      · left
        exact hlen
    rw [if_neg h1, if_pos h2]
    show (do
        let s1 ← get_split_comma (convert_to_string c1 fm)
        let s2 ← get_split_comma (convert_to_string c2 fm)
        pure (decide (s1 = s2)) : Except Unit Bool) = Except.ok true ↔ _
    rw [get_split_comma_spec _ (hds c1), get_split_comma_spec _ (hds c2)]
    show (Except.ok (decide (specSegSet (convert_to_string c1 fm)
        = specSegSet (convert_to_string c2 fm))) : Except Unit Bool) = .ok true ↔ _
    simp [heq]

theorem c1_is_all_same_witness :
    is_all_same [0] [0] (fun _ => (['a'] : PyStr)) = .ok true ↔
      (([0] : List Nat) = [0] ∨
        specSegSet (convert_to_string [0] (fun _ => (['a'] : PyStr))) =
          specSegSet (convert_to_string [0] (fun _ => (['a'] : PyStr)))) :=
  c1_is_all_same [0] [0] (fun _ => ['a']) (fun _ => by show ('$' : Char) ∉ (['a'] : PyStr); decide)

/-! ## `specRuns` decomposition at a separating top-level comma -/

theorem ldrop_append_le {α : Type _} :
    ∀ (pre z : List α) (j : Nat), j ≤ pre.length →
      (pre ++ z).drop j = pre.drop j ++ z := by
  intro pre
  induction pre with
  | nil =>
    intro z j h
    have hj : j = 0 := Nat.le_zero.1 (by simpa using h)
    subst hj
    rfl
  | cons a pre' ih =>
    intro z j h
    cases j with
    | zero => rfl
    | succ j =>
      rw [List.cons_append, List.drop_succ_cons, List.drop_succ_cons,
        ih z j (by simpa using h)]

theorem isTopLevelComma_append_left (r z : List PyStr) (i : Nat) (hi : i < r.length)
    (hz : z.count tLParen = z.count tRParen) :
    (isTopLevelComma (r ++ z) i ↔ isTopLevelComma r i) := by
  unfold isTopLevelComma
  rw [lgetD_append_lt r z i [] hi, ltake_append_le r z i (le_of_lt hi),
    ldrop_append_le r z (i + 1) hi, List.count_append, List.count_append]
  constructor
  · rintro ⟨h1, h2, h3⟩
    exact ⟨h1, h2, by omega⟩
  · rintro ⟨h1, h2, h3⟩
    exact ⟨h1, h2, by omega⟩

theorem isTopLevelComma_sep (r T : List PyStr)
    (hr : r.count tLParen = r.count tRParen) (hT : T.count tLParen = T.count tRParen) :
    isTopLevelComma (r ++ tComma :: T) r.length := by
  refine ⟨?_, ?_, ?_⟩
  · have h := lgetD_append_right r (tComma :: T) 0 ([] : PyStr)
    rw [Nat.add_zero] at h
    rw [h, List.getD_cons_zero]
  · have h := ltake_append_right r (tComma :: T) 0
    rw [Nat.add_zero] at h
    rw [h, List.take_zero, List.append_nil]
    exact hr
  · have h := ldrop_append_right r (tComma :: T) 1
    rw [h, List.drop_succ_cons, List.drop_zero]
    exact hT

theorem isTopLevelComma_append_right (r T : List PyStr) (j : Nat)
    (hr : r.count tLParen = r.count tRParen) :
    (isTopLevelComma (r ++ tComma :: T) (r.length + (j + 1)) ↔ isTopLevelComma T j) := by
  unfold isTopLevelComma
  have hget : (r ++ tComma :: T).getD (r.length + (j + 1)) [] = T.getD j [] := by
    rw [lgetD_append_right, List.getD_cons_succ]
  have htake : (r ++ tComma :: T).take (r.length + (j + 1)) = r ++ tComma :: T.take j := by
    rw [ltake_append_right, List.take_succ_cons]
  have hdrop : (r ++ tComma :: T).drop (r.length + (j + 1) + 1) = T.drop (j + 1) := by
    rw [show r.length + (j + 1) + 1 = r.length + (j + 2) from by omega, ldrop_append_right,
      List.drop_succ_cons]
  rw [hget, htake, hdrop, List.count_append, List.count_append,
    List.count_cons_of_ne (by decide : tLParen ≠ tComma) (T.take j),
    List.count_cons_of_ne (by decide : tRParen ≠ tComma) (T.take j)]
  constructor
  · rintro ⟨h1, h2, h3⟩
    exact ⟨h1, by omega, h3⟩
  · rintro ⟨h1, h2, h3⟩
    exact ⟨h1, by omega, h3⟩

theorem markSpecOpt_append_comma (r T : List PyStr)
    (hr : r.count tLParen = r.count tRParen) (hT : T.count tLParen = T.count tRParen) :
    markSpecOpt (r ++ tComma :: T) = markSpecOpt r ++ none :: markSpecOpt T := by
  have hz : (tComma :: T).count tLParen = (tComma :: T).count tRParen := by
    rw [List.count_cons_of_ne (by decide : tLParen ≠ tComma) T,
      List.count_cons_of_ne (by decide : tRParen ≠ tComma) T]
    exact hT
  unfold markSpecOpt
  rw [show (r ++ tComma :: T).length = r.length + (T.length + 1) from by simp,
    List.range_add, List.map_append, List.map_map]
  congr 1
  · apply List.map_congr_left
    intro i hi
    have hilt : i < r.length := List.mem_range.1 hi
    by_cases h : isTopLevelComma (r ++ tComma :: T) i
    · rw [if_pos h, if_pos ((isTopLevelComma_append_left r _ i hilt hz).1 h)]
    · rw [if_neg h, if_neg (fun h2 => h ((isTopLevelComma_append_left r _ i hilt hz).2 h2)),
        lgetD_append_lt r _ i [] hilt]
  · rw [List.range_succ_eq_map, List.map_cons, List.map_map]
    congr 1
    · show (if isTopLevelComma (r ++ tComma :: T) (r.length + 0) then none
        else some ((r ++ tComma :: T).getD (r.length + 0) [])) = none
      rw [Nat.add_zero, if_pos (isTopLevelComma_sep r T hr hT)]
    · apply List.map_congr_left
      intro j hj
      show (if isTopLevelComma (r ++ tComma :: T) (r.length + (j + 1)) then none
          else some ((r ++ tComma :: T).getD (r.length + (j + 1)) [])) =
        (if isTopLevelComma T j then none else some (T.getD j []))
      have hget : (r ++ tComma :: T).getD (r.length + (j + 1)) [] = T.getD j [] := by
        rw [lgetD_append_right, List.getD_cons_succ]
      by_cases h : isTopLevelComma T j
      · rw [if_pos ((isTopLevelComma_append_right r T j hr).2 h), if_pos h]
      · rw [if_neg (fun h2 => h ((isTopLevelComma_append_right r T j hr).1 h2)), if_neg h, hget]

theorem specRuns_append_comma (r T : List PyStr)
    (hr : r.count tLParen = r.count tRParen) (hT : T.count tLParen = T.count tRParen) :
    specRuns (r ++ tComma :: T) = specRuns r ++ specRuns T := by
  unfold specRuns
  rw [markSpecOpt_append_comma r T hr hT, splitAtNone_append]

theorem splitAtNone_map_some : ∀ l : List PyStr, splitAtNone (l.map some) = [l] := by
  intro l
  induction l with
  | nil => rfl
  | cons t rest ih =>
    rw [List.map_cons, splitAtNone, ih]

theorem specRuns_of_no_top_level (toks : List PyStr)
    (h : ∀ i, ¬ isTopLevelComma toks i) :
    specRuns toks = [toks] := by
  unfold specRuns
  have hm : markSpecOpt toks = toks.map some := by
    unfold markSpecOpt
    have h1 : (List.range toks.length).map (fun i => if isTopLevelComma toks i then none
        else some (toks.getD i [])) =
        (List.range toks.length).map (fun i => some (toks.getD i [])) :=
      List.map_congr_left (fun i _ => by rw [if_neg (h i)])
    rw [h1, show (fun i => some (toks.getD i [])) =
        some ∘ (fun i => toks.getD i ([] : PyStr)) from rfl,
      ← List.map_map, list_range_map_getD]
  rw [hm, splitAtNone_map_some]

theorem top_level_lt_length {toks : List PyStr} {p : Nat} (h : isTopLevelComma toks p) :
    p < toks.length := by
  by_contra hge
  have h0 : toks.getD p [] = [] := List.getD_eq_default _ _ (le_of_not_lt hge)
  rw [h.1] at h0
  exact absurd h0 (by decide)

theorem decomp_at {α : Type _} (d : α) :
    ∀ (l : List α) (p : Nat), p < l.length → l = l.take p ++ l.getD p d :: l.drop (p + 1) := by
  intro l
  induction l with
  | nil => intro p h; cases h
  | cons x xs ih =>
    intro p h
    cases p with
    | zero => rfl
    | succ p =>
      show x :: xs = x :: (xs.take p ++ xs.getD p d :: xs.drop (p + 1))
      rw [← ih p (by simpa using h)]

/-- No token run produced by the top-level-comma segmentation contains a
top-level comma of its own (runs are maximal). -/
theorem specRuns_no_top_level_aux :
    ∀ (n : Nat) (toks : List PyStr), toks.length ≤ n →
      ∀ r ∈ specRuns toks, ∀ i, ¬ isTopLevelComma r i := by
  intro n
  induction n with
  | zero =>
    intro toks hlen r hr i
    have htoks : toks = [] := List.length_eq_zero.1 (Nat.le_zero.1 hlen)
    subst htoks
    have hrn : r = [] := by
      rw [show specRuns [] = [[]] from rfl] at hr
      rcases List.mem_cons.1 hr with rfl | h
      · rfl
      · cases h
    subst hrn
    rintro ⟨h1, -, -⟩
    have h2 : ([] : List PyStr).getD i [] = [] := by cases i <;> rfl
    rw [h2] at h1
    exact absurd h1 (by decide)
  | succ n ih =>
    intro toks hlen r hr i
    by_cases hex : ∃ p, isTopLevelComma toks p
    · have hp : isTopLevelComma toks (Nat.find hex) := Nat.find_spec hex
      have hplt : Nat.find hex < toks.length := top_level_lt_length hp
      have heq : toks = toks.take (Nat.find hex) ++ tComma :: toks.drop (Nat.find hex + 1) := by
        have h0 := decomp_at ([] : PyStr) toks (Nat.find hex) hplt
        rw [hp.1] at h0
        exact h0
      have hbal1 := hp.2.1
      have hbal2 := hp.2.2
      have hlent : (toks.take (Nat.find hex)).length = Nat.find hex := by
        rw [List.length_take]
        omega
      have hz : (tComma :: toks.drop (Nat.find hex + 1)).count tLParen =
          (tComma :: toks.drop (Nat.find hex + 1)).count tRParen := by
        rw [List.count_cons_of_ne (by decide : tLParen ≠ tComma) _,
          List.count_cons_of_ne (by decide : tRParen ≠ tComma) _]
        exact hbal2
      have hnotl : ∀ j, ¬ isTopLevelComma (toks.take (Nat.find hex)) j := by
        intro j hj
        by_cases hjlt : j < Nat.find hex
        · have hj' := (isTopLevelComma_append_left (toks.take (Nat.find hex))
            (tComma :: toks.drop (Nat.find hex + 1)) j (by rw [hlent]; exact hjlt) hz).2 hj
          rw [← heq] at hj'
          exact Nat.find_min hex hjlt hj'
        · obtain ⟨h1, -, -⟩ := hj
          have h2 : (toks.take (Nat.find hex)).getD j [] = [] := by
            apply List.getD_eq_default
            rw [hlent]
            omega
          rw [h2] at h1
          exact absurd h1 (by decide)
      have hruns : specRuns toks =
          [toks.take (Nat.find hex)] ++ specRuns (toks.drop (Nat.find hex + 1)) := by
        conv_lhs => rw [heq]
        rw [specRuns_append_comma _ _ hbal1 hbal2, specRuns_of_no_top_level _ hnotl]
      rw [hruns] at hr
      rcases List.mem_append.1 hr with h1 | h1
      · rcases List.mem_singleton.1 h1 with rfl
        exact hnotl i
      · exact ih (toks.drop (Nat.find hex + 1)) (by rw [List.length_drop]; omega) r h1 i
    · push_neg at hex
      rw [specRuns_of_no_top_level toks hex] at hr
      rcases List.mem_singleton.1 hr with rfl
      exact hex i

theorem specRuns_no_top_level (toks : List PyStr) :
    ∀ r ∈ specRuns toks, ∀ i, ¬ isTopLevelComma r i :=
  specRuns_no_top_level_aux toks.length toks (le_refl _)

theorem interComma_balanced :
    ∀ R : List (List PyStr), (∀ r ∈ R, r.count tLParen = r.count tRParen) →
      (interComma R).count tLParen = (interComma R).count tRParen := by
  intro R
  induction R with
  | nil => intro _; rfl
  | cons r R' ih =>
    intro h
    cases R' with
    | nil => exact h r (List.mem_cons_self _ _)
    | cons r2 R'' =>
      rw [interComma_cons_of_ne_nil r (List.cons_ne_nil _ _), List.count_append,
        List.count_append, List.count_cons_of_ne (by decide : tLParen ≠ tComma) _,
        List.count_cons_of_ne (by decide : tRParen ≠ tComma) _,
        h r (List.mem_cons_self _ _), ih (fun u hu => h u (List.mem_cons_of_mem _ hu))]

/-- Joining balanced comma-free-boundary runs with `","` tokens and
re-segmenting recovers exactly the given runs. -/
theorem specRuns_interComma :
    ∀ R : List (List PyStr), R ≠ [] →
      (∀ r ∈ R, r.count tLParen = r.count tRParen) →
      (∀ r ∈ R, ∀ i, ¬ isTopLevelComma r i) →
      specRuns (interComma R) = R := by
  intro R
  induction R with
  | nil => intro h; exact absurd rfl h
  | cons r R' ih =>
    intro _ hbal htop
    cases R' with
    | nil =>
      show specRuns r = [r]
      exact specRuns_of_no_top_level r (htop r (List.mem_cons_self _ _))
    | cons r2 R'' =>
      rw [interComma_cons_of_ne_nil r (List.cons_ne_nil _ _),
        specRuns_append_comma r _ (hbal r (List.mem_cons_self _ _))
          (interComma_balanced _ (fun u hu => hbal u (List.mem_cons_of_mem _ hu))),
        specRuns_of_no_top_level r (htop r (List.mem_cons_self _ _)),
        ih (List.cons_ne_nil _ _) (fun u hu => hbal u (List.mem_cons_of_mem _ hu))
          (fun u hu => htop u (List.mem_cons_of_mem _ hu))]
      rfl

theorem mem_splitAtNone {t : PyStr} :
    ∀ (L : List (Option PyStr)) (r : List PyStr), r ∈ splitAtNone L → t ∈ r → some t ∈ L := by
  intro L
  induction L with
  | nil =>
    intro r hr ht
    rcases List.mem_singleton.1 hr with rfl
    cases ht
  | cons o rest ih =>
    intro r hr ht
    cases o with
    | none =>
      rw [splitAtNone] at hr
      rcases List.mem_cons.1 hr with rfl | h
      · cases ht
      · exact List.mem_cons_of_mem _ (ih r h ht)
    | some x =>
      rw [splitAtNone] at hr
      cases h : splitAtNone rest with
      | nil => exact absurd h (splitAtNone_ne_nil rest)
      | cons r0 rs =>
        rw [h] at hr
        rcases List.mem_cons.1 hr with rfl | h1
        · rcases List.mem_cons.1 ht with rfl | h2
          · exact List.mem_cons_self _ _
          · exact List.mem_cons_of_mem _ (ih r0 (by rw [h]; exact List.mem_cons_self _ _) h2)
        · exact List.mem_cons_of_mem _ (ih r (by rw [h]; exact List.mem_cons_of_mem _ h1) ht)

theorem mem_markSpecOpt {t : PyStr} (toks : List PyStr) (h : some t ∈ markSpecOpt toks) :
    t ∈ toks := by
  unfold markSpecOpt at h
  obtain ⟨i, hi, hit⟩ := List.mem_map.1 h
  have hilt : i < toks.length := List.mem_range.1 hi
  by_cases htop : isTopLevelComma toks i
  · rw [if_pos htop] at hit
    cases hit
  · rw [if_neg htop] at hit
    have h2 : t = toks.getD i [] := (Option.some.inj hit).symm
    rw [h2, List.getD_eq_getElem _ _ hilt]
    exact List.getElem_mem hilt

theorem replaceCommas_head_ne_comma :
    ∀ (s : PyStr) (c : Char) (rest : PyStr), replaceCommas s = c :: rest → c ≠ ',' := by
  intro s c rest h
  cases s with
  | nil => cases h
  | cons a s' =>
    rw [replaceCommas] at h
    by_cases ha : a = ','
    · rw [if_pos ha] at h
      injection h with h1 _
      rw [← h1]
      decide
    · rw [if_neg ha] at h
      injection h with h1 _
      intro hc
      exact ha (h1.trans hc)

/-- Every token of `tokenize` is either the comma token itself or contains no
comma: `replace(",", " , ")` isolates all commas before splitting. -/
theorem tokenize_token_shape :
    ∀ s : PyStr, ∀ t ∈ tokenize s, t = tComma ∨ ',' ∉ t := by
  intro s
  induction s with
  | nil => intro t ht; cases ht
  | cons a s' ih =>
    intro t ht
    unfold tokenize at ht
    by_cases ha : a = ','
    · rw [show replaceCommas (a :: s') = ' ' :: ',' :: ' ' :: replaceCommas s' from by
          rw [replaceCommas, if_pos ha]; rfl,
        splitWs_cons_space (by decide), splitWs_cons2_space (by decide) (by decide),
        splitWs_cons_space (by decide)] at ht
      rcases List.mem_cons.1 ht with rfl | h
      · exact Or.inl rfl
      · exact ih t h
    · rw [show replaceCommas (a :: s') = a :: replaceCommas s' from by
          rw [replaceCommas, if_neg ha]; rfl] at ht
      by_cases hsp : isSpaceChar a = true
      · rw [splitWs_cons_space hsp] at ht
        exact ih t ht
      · have ha' : isSpaceChar a = false := by simpa using hsp
        cases hr : replaceCommas s' with
        | nil =>
          rw [hr, splitWs_singleton_nonspace ha'] at ht
          rcases List.mem_cons.1 ht with rfl | h
          · right
            intro hc
            rcases List.mem_cons.1 hc with h1 | h1
            · exact ha h1.symm
            · cases h1
          · cases h
        | cons c2 rest2 =>
          by_cases hc2 : isSpaceChar c2 = true
          · rw [hr, splitWs_cons2_space ha' hc2] at ht
            rcases List.mem_cons.1 ht with rfl | h
            · right
              intro hc
              rcases List.mem_cons.1 hc with h1 | h1
              · exact ha h1.symm
              · cases h1
            · exact ih t (show t ∈ splitWs (replaceCommas s') by rw [hr]; exact h)
          · have hc2' : isSpaceChar c2 = false := by simpa using hc2
            rw [hr, splitWs_cons2_nonspace ha' hc2'] at ht
            obtain ⟨t0, rest0, hsplit⟩ := splitWs_cons_nonspace rest2 c2 hc2'
            rw [hsplit, List.modifyHead_cons] at ht
            rcases List.mem_cons.1 ht with rfl | h
            · right
              have hc2com : c2 ≠ ',' := replaceCommas_head_ne_comma s' c2 rest2 hr
              have htok : (c2 :: t0) ∈ splitWs (replaceCommas s') := by
                rw [hr, hsplit]
                exact List.mem_cons_self _ _
              rcases ih (c2 :: t0) htok with heq | hnocomma
              · have h1 : c2 = ',' ∧ t0 = [] := by simpa [tComma] using heq
                exact absurd h1.1 hc2com
              · intro hc
                rcases List.mem_cons.1 hc with h1 | h1
                · exact ha h1.symm
                · exact hnocomma h1
            · exact ih t (show t ∈ splitWs (replaceCommas s') by
                rw [hr, hsplit]; exact List.mem_cons_of_mem _ h)

/-- Tokenizing the comma-joined reassembly interleaves the pieces' token
lists with `","` tokens. -/
theorem tokenize_joinComma :
    ∀ L : List PyStr, tokenize (joinComma L) = interComma (L.map tokenize) := by
  intro L
  induction L with
  | nil => rfl
  | cons x L' ih =>
    cases L' with
    | nil => rfl
    | cons y L'' =>
      rw [joinComma_cons_of_ne_nil x (List.cons_ne_nil _ _)]
      show splitWs (replaceCommas (x ++ ',' :: joinComma (y :: L''))) =
        interComma (List.map tokenize (x :: y :: L''))
      rw [replaceCommas_append,
        show replaceCommas (',' :: joinComma (y :: L'')) =
          [' ', ',', ' '] ++ replaceCommas (joinComma (y :: L'')) from by
            rw [replaceCommas, if_pos rfl],
        show replaceCommas x ++ ([' ', ',', ' '] ++ replaceCommas (joinComma (y :: L''))) =
          replaceCommas x ++ ' ' :: (',' :: ' ' :: replaceCommas (joinComma (y :: L''))) from by
            simp,
        splitWs_append_space (by decide),
        show splitWs (',' :: ' ' :: replaceCommas (joinComma (y :: L''))) =
          [','] :: splitWs (replaceCommas (joinComma (y :: L''))) from by
            rw [splitWs_cons2_space (by decide) (by decide), splitWs_cons_space (by decide)],
        show splitWs (replaceCommas (joinComma (y :: L''))) =
          tokenize (joinComma (y :: L'')) from rfl,
        ih,
        show interComma (List.map tokenize (x :: y :: L'')) =
          tokenize x ++ tComma :: interComma (List.map tokenize (y :: L'')) from
            interComma_cons_of_ne_nil (tokenize x) (by simp)]
      rfl

/-- Tokenizing the space-joined rendering of a run of clean tokens (each the
comma token or comma-free) recovers the run. -/
theorem tokenize_joinSpace_run :
    ∀ r : List PyStr,
      (∀ t ∈ r, t = tComma ∨ (t ≠ [] ∧ (∀ c ∈ t, isSpaceChar c = false) ∧ ',' ∉ t)) →
      tokenize (joinSpace r) = r := by
  intro r
  induction r with
  | nil => intro _; rfl
  | cons t rest ih =>
    intro h
    cases rest with
    | nil =>
      rcases h t (List.mem_cons_self _ _) with rfl | ⟨hne, hcl, hnc⟩
      · rfl
      · show splitWs (replaceCommas t) = [t]
        rw [replaceCommas_of_no_comma t (fun c hc hceq => hnc (hceq ▸ hc)),
          splitWs_of_clean t hne hcl]
    | cons y rest' =>
      rw [joinSpace_cons_of_ne_nil t (List.cons_ne_nil _ _)]
      unfold tokenize
      rw [replaceCommas_append,
        show replaceCommas (' ' :: joinSpace (y :: rest')) =
          ' ' :: replaceCommas (joinSpace (y :: rest')) from by
            rw [replaceCommas, if_neg (by decide)]; rfl]
      rcases h t (List.mem_cons_self _ _) with rfl | ⟨hne, hcl, hnc⟩
      · rw [show replaceCommas tComma = [' ', ',', ' '] from rfl]
        show splitWs (' ' :: ',' :: ' ' :: (' ' :: replaceCommas (joinSpace (y :: rest')))) = _
        rw [splitWs_cons_space (by decide), splitWs_cons2_space (by decide) (by decide),
          splitWs_cons_space (by decide), splitWs_cons_space (by decide),
          show splitWs (replaceCommas (joinSpace (y :: rest'))) =
            tokenize (joinSpace (y :: rest')) from rfl,
          ih (fun u hu => h u (List.mem_cons_of_mem _ hu))]
        rfl
      · rw [replaceCommas_of_no_comma t (fun c hc hceq => hnc (hceq ▸ hc)),
          splitWs_append_space (by decide), splitWs_of_clean t hne hcl,
          show splitWs (replaceCommas (joinSpace (y :: rest'))) =
            tokenize (joinSpace (y :: rest')) from rfl,
          ih (fun u hu => h u (List.mem_cons_of_mem _ hu))]
        rfl

theorem headI_append_of_ne_nil {α : Type _} [Inhabited α] (l1 l2 : List α) (h : l1 ≠ []) :
    (l1 ++ l2).headI = l1.headI := by
  cases l1 with
  | nil => exact absurd rfl h
  | cons a t => rfl

/-- The space-joined rendering of nonempty whitespace-free tokens has no
leading or trailing whitespace, so stripping it is the identity. -/
theorem pyStrip_joinSpace_clean :
    ∀ r : List PyStr, (∀ t ∈ r, t ≠ [] ∧ ∀ c ∈ t, isSpaceChar c = false) →
      pyStrip (joinSpace r) = joinSpace r := by
  have hlast : ∀ r : List PyStr, (∀ t ∈ r, t ≠ [] ∧ ∀ c ∈ t, isSpaceChar c = false) →
      joinSpace r = [] ∨ isSpaceChar ((joinSpace r).reverse.headI) = false := by
    intro r
    induction r with
    | nil => intro _; exact Or.inl rfl
    | cons t rest ih =>
      intro h
      cases rest with
      | nil =>
        obtain ⟨hne, hcl⟩ := h t (List.mem_cons_self _ _)
        right
        show isSpaceChar (t.reverse.headI) = false
        cases hrev : t.reverse with
        | nil => exact absurd (List.reverse_eq_nil_iff.1 hrev) hne
        | cons c q =>
          have hc : c ∈ t := by
            have hm : c ∈ t.reverse := by rw [hrev]; exact List.mem_cons_self _ _
            simpa using hm
          exact hcl c hc
      | cons y rest' =>
        have hjs : joinSpace (y :: rest') ≠ [] :=
          joinSpace_ne_nil (List.cons_ne_nil _ _)
            (fun u hu => (h u (List.mem_cons_of_mem _ hu)).1)
        rcases ih (fun u hu => h u (List.mem_cons_of_mem _ hu)) with h1 | h1
        · exact absurd h1 hjs
        · right
          rw [joinSpace_cons_of_ne_nil t (List.cons_ne_nil _ _), List.reverse_append,
            List.reverse_cons, List.append_assoc,
            headI_append_of_ne_nil _ _ (by simpa using hjs)]
          exact h1
  intro r h
  unfold pyStrip
  rw [pyLStrip_eq_self_of_head ?hhead]
  · exact pyRStrip_eq_self_of_last (hlast r h)
  case hhead =>
    cases r with
    | nil => exact Or.inl rfl
    | cons t rest =>
      obtain ⟨hne, hcl⟩ := h t (List.mem_cons_self _ _)
      cases t with
      | nil => exact absurd rfl hne
      | cons c t' =>
        right
        cases rest with
        | nil => exact hcl c (List.mem_cons_self _ _)
        | cons y rest' =>
          rw [joinSpace_cons_of_ne_nil _ (List.cons_ne_nil _ _)]
          show isSpaceChar ((c :: (t' ++ ' ' :: joinSpace (y :: rest'))).headI) = false
          exact hcl c (List.mem_cons_self _ _)

theorem mem_pyStrip {c : Char} {x : PyStr} (h : c ∈ pyStrip x) : c ∈ x := by
  unfold pyStrip pyRStrip pyLStrip at h
  have h1 : c ∈ (x.dropWhile isSpaceChar).reverse :=
    (List.dropWhile_sublist _).subset (List.mem_reverse.1 h)
  exact (List.dropWhile_sublist _).subset (List.mem_reverse.1 h1)

/-- C6 as stated is false on two counts.  First, `get_split_comma` also
splits at `"$"` characters already present in the input, so its result can
differ from the set of top-level comma segments (`"a $ b"` gives
`{"a", "b"}`, not `{"a $ b"}`).  Second, duplicating a segment whose
parentheses are unbalanced changes the result: `"("` has the single segment
`"("`, but `get_split_comma "(,(" ≠ get_split_comma "("` because the comma
between the duplicated unbalanced segments is not top-level. -/
theorem c6_counterexample :
    get_split_comma ['a', ' ', '$', ' ', 'b'] ≠
      .ok (specSegSet ['a', ' ', '$', ' ', 'b']) ∧
    (specSegStrings (tokenize ['(']) = [['(']] ∧
      ([['('], ['(']] : List PyStr).toFinset = (specSegStrings (tokenize ['('])).toFinset ∧
      get_split_comma (joinComma [['('], ['(']]) ≠ get_split_comma ['(']) := by
  refine ⟨by decide, by decide, by decide, by decide⟩

/-- C6 (amended): for a `"$"`-free string whose top-level comma segments are
all parenthesis-balanced (equally many `"("` and `")"` tokens),
`get_split_comma` returns exactly the set of whitespace-trimmed top-level
segments, and its result is invariant under reassembling any nonempty list
of those segment strings with commas — permutation, duplication and
de-duplication of segments in particular. -/
theorem c6_get_split_comma (s : PyStr) (hd : '$' ∉ s)
    (hbal : ∀ r ∈ specRuns (tokenize s), r.count tLParen = r.count tRParen)
    (L : List PyStr) (hL : L ≠ [])
    (hset : L.toFinset = (specSegStrings (tokenize s)).toFinset) :
    get_split_comma s = .ok (specSegSet s) ∧
    get_split_comma (joinComma L) = get_split_comma s := by
  have hspec := get_split_comma_spec s hd
  refine ⟨hspec, ?_⟩
  have hchar : ∀ t ∈ tokenize s, '$' ∉ t := by
    intro t ht hc
    have hmem := ((splitWs_tokens (replaceCommas s) t ht).2 '$' hc).2
    rcases mem_replaceCommas s hmem with h1 | h1 | h1
    · exact hd h1
    · exact absurd h1 (by decide)
    · exact absurd h1 (by decide)
  have hclean : ∀ t ∈ tokenize s, t ≠ [] ∧ ∀ c ∈ t, isSpaceChar c = false := by
    intro t ht
    exact ⟨(splitWs_tokens _ t ht).1, fun c hc => ((splitWs_tokens _ t ht).2 c hc).1⟩
  have hrtok : ∀ r ∈ specRuns (tokenize s), ∀ t ∈ r, t ∈ tokenize s := by
    intro r hr t ht
    exact mem_markSpecOpt _ (mem_splitAtNone (markSpecOpt (tokenize s)) r hr ht)
  have hxr : ∀ x ∈ L, ∃ r ∈ specRuns (tokenize s), x = pyStrip (joinSpace r) := by
    intro x hx
    have hx2 : x ∈ specSegStrings (tokenize s) := by
      have hx1 := List.mem_toFinset.2 hx
      rw [hset] at hx1
      exact List.mem_toFinset.1 hx1
    obtain ⟨r, hr, heq⟩ := List.mem_map.1 hx2
    exact ⟨r, hr, heq.symm⟩
  have htokx : ∀ x, ∀ r ∈ specRuns (tokenize s), x = pyStrip (joinSpace r) →
      tokenize x = r := by
    intro x r hr hxeq
    have hcl : ∀ t ∈ r, t ≠ [] ∧ ∀ c ∈ t, isSpaceChar c = false :=
      fun t ht => hclean t (hrtok r hr t ht)
    have hxjs : x = joinSpace r := by
      rw [hxeq, pyStrip_joinSpace_clean r hcl]
    rw [hxjs]
    apply tokenize_joinSpace_run
    intro t ht
    rcases tokenize_token_shape s t (hrtok r hr t ht) with h1 | h1
    · exact Or.inl h1
    · exact Or.inr ⟨(hcl t ht).1, (hcl t ht).2, h1⟩
  have hrunsL : specRuns (interComma (L.map tokenize)) = L.map tokenize := by
    apply specRuns_interComma
    · simpa using hL
    · intro u hu
      obtain ⟨x, hx, rfl⟩ := List.mem_map.1 hu
      obtain ⟨r, hr, hxeq⟩ := hxr x hx
      rw [htokx x r hr hxeq]
      exact hbal r hr
    · intro u hu
      obtain ⟨x, hx, rfl⟩ := List.mem_map.1 hu
      obtain ⟨r, hr, hxeq⟩ := hxr x hx
      rw [htokx x r hr hxeq]
      exact specRuns_no_top_level (tokenize s) r hr
  have hsegL : specSegStrings (tokenize (joinComma L)) = L := by
    unfold specSegStrings
    rw [tokenize_joinComma L, hrunsL, List.map_map]
    have hid : ∀ x ∈ L, ((fun run => pyStrip (joinSpace run)) ∘ tokenize) x = x := by
      intro x hx
      obtain ⟨r, hr, hxeq⟩ := hxr x hx
      show pyStrip (joinSpace (tokenize x)) = x
      rw [htokx x r hr hxeq, ← hxeq]
    calc L.map ((fun run => pyStrip (joinSpace run)) ∘ tokenize)
        = L.map id := List.map_congr_left hid
      _ = L := List.map_id L
  have hdL : '$' ∉ joinComma L := by
    intro hc
    rcases mem_joinComma L hc with ⟨x, hx, hcx⟩ | hcm
    · obtain ⟨r, hr, hxeq⟩ := hxr x hx
      rw [hxeq] at hcx
      have h1 : '$' ∈ joinSpace r := mem_pyStrip hcx
      rcases mem_joinSpace r h1 with ⟨t, ht, hct⟩ | hsp
      · exact hchar t (hrtok r hr t ht) hct
      · exact absurd hsp (by decide)
    · exact absurd hcm (by decide)
  rw [get_split_comma_spec (joinComma L) hdL, hspec]
  refine congrArg Except.ok ?_
  show (specSegStrings (tokenize (joinComma L))).toFinset = specSegSet s
  rw [hsegL, hset]
  rfl

theorem c6_get_split_comma_witness :
    get_split_comma ['a', ',', 'b'] = .ok (specSegSet ['a', ',', 'b']) ∧
    get_split_comma (joinComma [['b'], ['a'], ['b']]) = get_split_comma ['a', ',', 'b'] :=
  c6_get_split_comma ['a', ',', 'b'] (by decide) (by decide) [['b'], ['a'], ['b']]
    (by decide) (by decide)
